import Mathlib

/-!
Verification of the response-normalization and request-validation layer of
`app.py` (a small Flask gateway around an external LLM pipeline).

The embedding models Python strings as `List Char`.  JSON values are modelled
by `JValue`; `json.loads` is modelled by `json_loads` (a fuel-based
recursive-descent reading of CPython's `json.decoder`, strict mode, default
flags) and `json.dumps` by `encode` (default flags: `ensure_ascii=True`,
separators `", "` / `": "`).  Modelling boundaries, noted where relevant:
JSON numbers are restricted to integers (float syntax is outside the model),
and `\uXXXX` escapes decoding to lone UTF-16 surrogates are rejected by the
model (a Lean `Char` cannot hold a lone surrogate, while a Python `str` can).

`parse_llm_json` and the `/chat` handler `chat` are direct translations of
the functions of the same names in `app.py`.
-/

namespace RfpApp

/-- Convert a Lean string literal to the `List Char` model of a Python `str`. -/
def pyStr (s : String) : List Char := s.toList

/-- The backtick character (code 96). -/
def backtick : Char := Char.ofNat 96

/-- Opening curly brace (code 123). -/
def lbrace : Char := Char.ofNat 123

/-- Closing curly brace (code 125). -/
def rbrace : Char := Char.ofNat 125

/-- Apostrophe (code 39), used in CPython error messages. -/
def apos : Char := Char.ofNat 39

/-!  ## Python `str.replace`

`replaceFuel pat rep fuel s` scans `s` left to right; at each position, if
`pat` is a prefix of the remaining input the occurrence is replaced by `rep`
and scanning resumes after it (global, non-overlapping replacement, exactly
Python's `str.replace`).  Fuel `s.length` always suffices since every step
consumes at least one character of a nonempty pattern's match or one plain
character. -/

def replaceFuel (pat rep : List Char) : Nat → List Char → List Char
  | 0, s => s
  | _ + 1, [] => []
  | fuel + 1, c :: cs =>
    if pat.isPrefixOf (c :: cs) then
      rep ++ replaceFuel pat rep fuel (cs.drop (pat.length - 1))
    else
      c :: replaceFuel pat rep fuel cs

/-- Python `s.replace(pat, rep)` for a nonempty `pat`. -/
def pyReplace (s pat rep : List Char) : List Char := replaceFuel pat rep s.length s

/-!  ## JSON scanner helpers (CPython `json.decoder`) -/

/-- The whitespace characters skipped by the JSON decoder (`' \t\n\r'`). -/
def isJsonWs (c : Char) : Bool := c = ' ' || c = '\t' || c = '\n' || c = '\r'

/-- Skip JSON whitespace. -/
def skipWs (s : List Char) : List Char := s.dropWhile isJsonWs

/-- ASCII decimal digit test. -/
def isDigit (c : Char) : Bool := 48 ≤ c.toNat && c.toNat ≤ 57

/-- Value of an ASCII decimal digit. -/
def digitVal (c : Char) : Nat := c.toNat - 48

/-- Value of a hexadecimal digit (both cases), as accepted in `\uXXXX`. -/
def hexVal (c : Char) : Option Nat :=
  if 48 ≤ c.toNat ∧ c.toNat ≤ 57 then some (c.toNat - 48)
  else if 97 ≤ c.toNat ∧ c.toNat ≤ 102 then some (c.toNat - 87)
  else if 65 ≤ c.toNat ∧ c.toNat ≤ 70 then some (c.toNat - 55)
  else none

/-- Combined value of four hexadecimal digits. -/
def hex4Val (h1 h2 h3 h4 : Char) : Option Nat :=
  match hexVal h1, hexVal h2, hexVal h3, hexVal h4 with
  | some a, some b, some c, some d => some (a * 4096 + b * 256 + c * 16 + d)
  | _, _, _, _ => none

/-- Scan of a JSON number restricted to the integer part of CPython's
`NUMBER_RE`: an optional leading-zero-free digit run.  A lone `0` consumes no
further digits (so `05` leaves `5` unconsumed, exactly as the regex does).
Float syntax (`.`, `e`, `E` continuations) is outside the model. -/
def parseNat : List Char → Option (Nat × List Char)
  | [] => none
  | c :: rest =>
    if c = '0' then some (0, rest)
    else if isDigit c then
      some ((rest.takeWhile isDigit).foldl (fun a d => a * 10 + digitVal d) (digitVal c),
            rest.dropWhile isDigit)
    else none

/-- Continuation after a high-surrogate `\uXXXX` escape of value `n`: a
low-surrogate escape must follow and the pair is combined. -/
def decodeLowSurrogate (n : Nat) (r1 : List Char) : Option (Char × List Char) :=
  match r1 with
  | '\\' :: 'u' :: g1 :: g2 :: g3 :: g4 :: r2 =>
    match hex4Val g1 g2 g3 g4 with
    | some m =>
      if 56320 ≤ m ∧ m < 57344 then
        some (Char.ofNat (65536 + (n - 55296) * 1024 + (m - 56320)), r2)
      else none
    | none => none
  | _ => none

/-- Decode one string escape sequence: `e` is the character after the
backslash, `r` the input after it.  Returns the decoded character and the
unconsumed input.  `\uXXXX` escapes are decoded with surrogate-pair
combination; lone surrogates are rejected by the model (see the module
comment). -/
def decodeEscape (e : Char) (r : List Char) : Option (Char × List Char) :=
  if e = '"' then some ('"', r)
  else if e = '\\' then some ('\\', r)
  else if e = '/' then some ('/', r)
  else if e = 'b' then some (Char.ofNat 8, r)
  else if e = 'f' then some (Char.ofNat 12, r)
  else if e = 'n' then some (Char.ofNat 10, r)
  else if e = 'r' then some (Char.ofNat 13, r)
  else if e = 't' then some (Char.ofNat 9, r)
  else if e = 'u' then
    match r with
    | h1 :: h2 :: h3 :: h4 :: r1 =>
      match hex4Val h1 h2 h3 h4 with
      | none => none
      | some n =>
        if n < 55296 ∨ 57344 ≤ n then some (Char.ofNat n, r1)
        else if n < 56320 then decodeLowSurrogate n r1
        else none
    | _ => none
  else none

/-- Scan of a JSON string body after the opening quote (CPython
`py_scanstring`, strict mode): literal characters below code 32 are
rejected, escapes are decoded by `decodeEscape`.  Fuel `s.length + 1`
always suffices (each step consumes at least one character). -/
def parseStrBody : Nat → List Char → Option (List Char × List Char)
  | 0, _ => none
  | _ + 1, [] => none
  | fuel + 1, c :: rest =>
    if c = '"' then some ([], rest)
    else if c = '\\' then
      match rest with
      | [] => none
      | e :: r =>
        match decodeEscape e r with
        | some (d, r2) => (parseStrBody fuel r2).map fun p => (d :: p.1, p.2)
        | none => none
    else if c.toNat < 32 then none
    else (parseStrBody fuel rest).map fun p => (c :: p.1, p.2)

/-!  ## JSON values -/

/-- The JSON value universe produced by `json.loads` (numbers restricted to
integers; see the module comment). -/
inductive JValue where
  | null : JValue
  | bool (b : Bool) : JValue
  | num (n : Int) : JValue
  | str (s : List Char) : JValue
  | arr (xs : List JValue) : JValue
  | obj (kvs : List (List Char × JValue)) : JValue

/-- Python `dict` update semantics used while building an object: an existing
key keeps its position and gets the new value, a fresh key is appended. -/
def insertKV : List (List Char × JValue) → List Char → JValue → List (List Char × JValue)
  | [], k, v => [(k, v)]
  | (k0, v0) :: t, k, v =>
    if k0 = k then (k0, v) :: t else (k0, v0) :: insertKV t k v

/-!  ## JSON value scanner (CPython `scan_once`) -/

mutual

/-- Scan one JSON value at the head of the input (no leading whitespace).
Returns the value and the unconsumed suffix. -/
def parseVal : Nat → List Char → Option (JValue × List Char)
  | 0, _ => none
  | _ + 1, [] => none
  | fuel + 1, c :: rest =>
    if c = '"' then
      match parseStrBody (rest.length + 1) rest with
      | some (cs, r) => some (.str cs, r)
      | none => none
    else if c = lbrace then
      match skipWs rest with
      | c2 :: r2 =>
        if c2 = rbrace then some (.obj [], r2) else parseObjItems fuel (c2 :: r2) []
      | [] => none
    else if c = '[' then
      match skipWs rest with
      | c2 :: r2 =>
        if c2 = ']' then some (.arr [], r2) else parseArrItems fuel (c2 :: r2) []
      | [] => none
    else if c = 'n' then
      match rest with
      | 'u' :: 'l' :: 'l' :: r => some (.null, r)
      | _ => none
    else if c = 't' then
      match rest with
      | 'r' :: 'u' :: 'e' :: r => some (.bool true, r)
      | _ => none
    else if c = 'f' then
      match rest with
      | 'a' :: 'l' :: 's' :: 'e' :: r => some (.bool false, r)
      | _ => none
    else if c = '-' then (parseNat rest).map fun p => (.num (-(p.1 : Int)), p.2)
    else if isDigit c then (parseNat (c :: rest)).map fun p => (.num (p.1 : Int), p.2)
    else none

/-- Scan the members of an object after `{` (whitespace already skipped,
input known nonempty and not `}`); `acc` holds the members built so far. -/
def parseObjItems : Nat → List Char → List (List Char × JValue) →
    Option (JValue × List Char)
  | 0, _, _ => none
  | fuel + 1, s, acc =>
    match s with
    | '"' :: rest =>
      match parseStrBody (rest.length + 1) rest with
      | some (k, r1) =>
        match skipWs r1 with
        | ':' :: r2 =>
          match parseVal fuel (skipWs r2) with
          | some (v, r3) =>
            match skipWs r3 with
            | c4 :: r4 =>
              if c4 = rbrace then some (.obj (insertKV acc k v), r4)
              else if c4 = ',' then parseObjItems fuel (skipWs r4) (insertKV acc k v)
              else none
            | [] => none
          | none => none
        | _ => none
      | none => none
    | _ => none

/-- Scan the elements of an array after `[` (whitespace already skipped,
input known nonempty and not `]`); `acc` holds the elements built so far. -/
def parseArrItems : Nat → List Char → List JValue → Option (JValue × List Char)
  | 0, _, _ => none
  | fuel + 1, s, acc =>
    match parseVal fuel s with
    | some (v, r1) =>
      match skipWs r1 with
      | c2 :: r2 =>
        if c2 = ']' then some (.arr (acc ++ [v]), r2)
        else if c2 = ',' then parseArrItems fuel (skipWs r2) (acc ++ [v])
        else none
      | [] => none
    | none => none

end

/-- Model of `json.loads`: skip leading whitespace, scan one value, require
only whitespace after it.  The fuel `2 * length + 2` is ample: every scanner
step consumes input (see the round-trip theorems, which hold for any
sufficient fuel). -/
def json_loads (s : List Char) : Option JValue :=
  match parseVal (2 * s.length + 2) (skipWs s) with
  | some (v, rest) => if skipWs rest = [] then some v else none
  | none => none

/-!  ## `json.dumps` (default flags) -/

/-- Lowercase hexadecimal digit, as emitted by `\uXXXX` escapes. -/
def hexDigitChar (n : Nat) : Char :=
  if n < 10 then Char.ofNat (48 + n) else Char.ofNat (87 + n)

/-- Four-digit lowercase hexadecimal rendering of `n < 65536`. -/
def hex4 (n : Nat) : List Char :=
  [hexDigitChar (n / 4096 % 16), hexDigitChar (n / 256 % 16),
   hexDigitChar (n / 16 % 16), hexDigitChar (n % 16)]

/-- Escape of one character inside a dumped string (CPython `ESCAPE_ASCII`
with `ensure_ascii=True`): printable ASCII other than `"` and backslash is
emitted raw, the short escapes are used where available, everything else
becomes `\uXXXX`, with a surrogate pair above `U+FFFF`. -/
def escChar (c : Char) : List Char :=
  if c = '"' then ['\\', '"']
  else if c = '\\' then ['\\', '\\']
  else if c.toNat = 8 then ['\\', 'b']
  else if c.toNat = 9 then ['\\', 't']
  else if c.toNat = 10 then ['\\', 'n']
  else if c.toNat = 12 then ['\\', 'f']
  else if c.toNat = 13 then ['\\', 'r']
  else if 32 ≤ c.toNat ∧ c.toNat ≤ 126 then [c]
  else if c.toNat < 65536 then '\\' :: 'u' :: hex4 c.toNat
  else '\\' :: 'u' :: hex4 (55296 + (c.toNat - 65536) / 1024) ++
       '\\' :: 'u' :: hex4 (56320 + (c.toNat - 65536) % 1024)

/-- Escape a whole string body. -/
def escStr : List Char → List Char
  | [] => []
  | c :: t => escChar c ++ escStr t

/-- Little-endian digit run of `n` (fuel-based; fuel `n` suffices). -/
def natRevDigits : Nat → Nat → List Char
  | 0, _ => []
  | fuel + 1, n =>
    if n = 0 then [] else Char.ofNat (48 + n % 10) :: natRevDigits fuel (n / 10)

/-- Decimal rendering of a natural number. -/
def natRepr (n : Nat) : List Char :=
  if n = 0 then ['0'] else (natRevDigits n n).reverse

/-- Decimal rendering of an integer. -/
def intRepr : Int → List Char
  | .ofNat n => natRepr n
  | .negSucc m => '-' :: natRepr (m + 1)

mutual

/-- Model of `json.dumps` with default flags (`ensure_ascii=True`, item
separator `", "`, key separator `": "`). -/
def encode : JValue → List Char
  | .null => pyStr "null"
  | .bool true => pyStr "true"
  | .bool false => pyStr "false"
  | .num n => intRepr n
  | .str s => '"' :: escStr s ++ ['"']
  | .arr [] => ['[', ']']
  | .arr (x :: xs) => '[' :: (encode x ++ encodeItems xs) ++ [']']
  | .obj [] => [lbrace, rbrace]
  | .obj (kv :: kvs) => lbrace :: (encodeMember kv ++ encodeMembers kvs) ++ [rbrace]

/-- Remaining array elements, each preceded by `", "`. -/
def encodeItems : List JValue → List Char
  | [] => []
  | x :: xs => ',' :: ' ' :: encode x ++ encodeItems xs

/-- One `"key": value` member. -/
def encodeMember : List Char × JValue → List Char
  | (k, v) => '"' :: escStr k ++ '"' :: ':' :: ' ' :: encode v

/-- Remaining object members, each preceded by `", "`. -/
def encodeMembers : List (List Char × JValue) → List Char
  | [] => []
  | kv :: kvs => ',' :: ' ' :: encodeMember kv ++ encodeMembers kvs

end

/-!  ## Normal form reached by parsing (Python `dict` semantics) -/

mutual

/-- The value `json.loads` reconstructs from the encoding of `v`: objects are
rebuilt left to right with `dict` update semantics (`insertKV`), so duplicate
keys collapse to the last value at the first position. -/
def jnorm : JValue → JValue
  | .null => .null
  | .bool b => .bool b
  | .num n => .num n
  | .str s => .str s
  | .arr xs => .arr (jnormList xs)
  | .obj kvs => .obj (jnormObj [] kvs)

/-- Pointwise `jnorm` on array elements. -/
def jnormList : List JValue → List JValue
  | [] => []
  | x :: xs => jnorm x :: jnormList xs

/-- Fold the members into an accumulator with `dict` update semantics. -/
def jnormObj : List (List Char × JValue) → List (List Char × JValue) →
    List (List Char × JValue)
  | acc, [] => acc
  | acc, (k, v) :: t => jnormObj (insertKV acc k (jnorm v)) t

end

/-- Does an association list bind the key? -/
def hasKeyB : List (List Char × JValue) → List Char → Bool
  | [], _ => false
  | (k, _) :: t, key => k = key || hasKeyB t key

/-- Are the keys of the association list pairwise distinct? -/
def keysDistinct : List (List Char × JValue) → Bool
  | [] => true
  | (k, _) :: t => !hasKeyB t k && keysDistinct t

mutual

/-- Well-formedness of a JSON value as a Python value: every object level has
pairwise-distinct keys (automatic for anything built from Python dicts). -/
def jwf : JValue → Bool
  | .null => true
  | .bool _ => true
  | .num _ => true
  | .str _ => true
  | .arr xs => jwfList xs
  | .obj kvs => keysDistinct kvs && jwfKVs kvs

/-- Well-formedness of all elements. -/
def jwfList : List JValue → Bool
  | [] => true
  | x :: xs => jwf x && jwfList xs

/-- Well-formedness of all member values. -/
def jwfKVs : List (List Char × JValue) → Bool
  | [] => true
  | (_, v) :: t => jwf v && jwfKVs t

end

/-- Is the value an object (a mapping)? -/
def isObj : JValue → Bool
  | .obj _ => true
  | _ => false

/-- Is the value a string? -/
def isStr : JValue → Bool
  | .str _ => true
  | _ => false

/-- Does the value, as an object, bind the key? -/
def objHasKey (v : JValue) (key : List Char) : Bool :=
  match v with
  | .obj kvs => hasKeyB kvs key
  | _ => false

/-!  ## `parse_llm_json` (app.py, lines 10-20) -/

/-- Opening fence marker stripped first: the seven characters of a
backtick-fenced JSON tag. -/
def fenceJson : List Char :=
  [backtick, backtick, backtick, 'j', 's', 'o', 'n']

/-- Generic fence marker stripped second: three backticks. -/
def fence : List Char := [backtick, backtick, backtick]

/-- Both replacement passes of `parse_llm_json` applied to the raw text. -/
def stripFences (raw : List Char) : List Char :=
  pyReplace (pyReplace raw fenceJson []) fence []

/-- The fixed fallback object of `parse_llm_json`, whose `raw_output` field
holds whatever the local variable `raw` holds when `json.loads` fails.  In
the source, `raw` has been reassigned by the two `replace` calls before the
parse is attempted. -/
def errObj (raw : List Char) : JValue :=
  .obj [(pyStr "answer", .str (pyStr "ERROR")),
        (pyStr "justification", .str (pyStr "LLM returned invalid JSON")),
        (pyStr "raw_output", .str raw)]

/-- Direct translation of `parse_llm_json`: rebind `raw` twice via
`str.replace`, then `json.loads`; on any parse failure return the fixed
fallback object built from the rebound `raw`. -/
def parse_llm_json (raw : List Char) : JValue :=
  let raw1 := pyReplace raw fenceJson []
  let raw2 := pyReplace raw1 fence []
  match json_loads raw2 with
  | some v => v
  | none => errObj raw2

/-- A raised Python exception, carrying its `str(e)` rendering. -/
structure PyExn where
  msg : List Char

/-- Exception-level model of `json.loads`: parse failure raises. -/
def json_loads_exc (s : List Char) : Except PyExn JValue :=
  match json_loads s with
  | some v => .ok v
  | none => .error ⟨pyStr "Expecting value"⟩

/-- Exception-level model of `parse_llm_json`: the `try` body may raise only
at `json.loads`; the `except Exception` arm catches it and builds the
fallback object, which itself cannot raise. -/
def parse_llm_json_exc (raw : List Char) : Except PyExn JValue :=
  let raw1 := pyReplace raw fenceJson []
  let raw2 := pyReplace raw1 fence []
  match json_loads_exc raw2 with
  | .ok v => .ok v
  | .error _ => .ok (errObj raw2)

/-!  ## The `/chat` handler (app.py, lines 41-60)

The inbound payload is modelled as `Option JValue`: `none` means
`request.get_json()` raised (body absent or not parseable as JSON — Flask
raises a `BadRequest`/`UnsupportedMediaType` `Exception` in either case),
`some v` means it returned the decoded value `v` (which need not be a
mapping).  The external `answer_question` pipeline is an oracle parameter
that either returns raw text or raises.  The result records the HTTP status,
the JSON body, and the list of arguments the pipeline was invoked with. -/

/-- Python whitespace stripped by `str.strip()` (ASCII range). -/
def pyIsSpace (c : Char) : Bool :=
  c = ' ' || c = '\t' || c = '\n' || c = '\r' || c.toNat = 11 || c.toNat = 12

/-- Python `str.strip()`. -/
def pyStrip (s : List Char) : List Char :=
  ((s.dropWhile pyIsSpace).reverse.dropWhile pyIsSpace).reverse

/-- First binding of a key in an association list (the decoded payloads fed
to the handler are already in `dict` normal form, so first = only). -/
def lookupKey : List (List Char × JValue) → List Char → Option JValue
  | [], _ => none
  | (k, v) :: t, key => if k = key then some v else lookupKey t key

/-- Python type name of the decoded value, as it appears in
`AttributeError` messages. -/
def pyTypeName : JValue → List Char
  | .null => pyStr "NoneType"
  | .bool _ => pyStr "bool"
  | .num _ => pyStr "int"
  | .str _ => pyStr "str"
  | .arr _ => pyStr "list"
  | .obj _ => pyStr "dict"

/-- CPython rendering of `AttributeError` for a missing attribute. -/
def attrErrMsg (v : JValue) (attr : List Char) : List Char :=
  apos :: pyTypeName v ++ apos :: pyStr " object has no attribute " ++
    apos :: attr ++ [apos]

/-- Rendering of the exception `request.get_json()` raises on an absent or
undecodable body (a werkzeug `HTTPException`; the exact text varies with the
Flask version, only its presence matters to the handler's 500 path). -/
def getJsonFailMsg : List Char :=
  pyStr "400 Bad Request: The browser (or proxy) sent a request that this server could not understand."

/-- A `jsonify({"error": msg})` body. -/
def errorBody (msg : List Char) : JValue := .obj [(pyStr "error", .str msg)]

/-- The `question` key. -/
def kQuestion : List Char := pyStr "question"

/-- Outcome of one `/chat` request: HTTP status, response body, and the
arguments passed to the pipeline (in order). -/
structure ChatOut where
  status : Nat
  body : JValue
  calls : List (List Char)

/-- Direct translation of the `chat` handler.  Everything runs inside
`try/except Exception`: a raising `get_json` (absent/undecodable payload), a
non-mapping payload (`data.get` raises `AttributeError`), a non-string
`question` value (`.strip()` raises `AttributeError`) and a raising pipeline
all reach the catch-all 500 arm; only an empty trimmed question reaches the
explicit 400 arm. -/
def chat (pipeline : List Char → Except PyExn (List Char))
    (payload : Option JValue) : ChatOut :=
  match payload with
  | none => ⟨500, errorBody getJsonFailMsg, []⟩
  | some data =>
    match data with
    | .obj kvs =>
      match (lookupKey kvs kQuestion).getD (.str []) with
      | .str s =>
        let question := pyStrip s
        if question = [] then ⟨400, errorBody (pyStr "Empty question"), []⟩
        else
          match pipeline question with
          | .error e => ⟨500, errorBody e.msg, [question]⟩
          | .ok raw =>
            ⟨200, .obj [(kQuestion, .str question),
                        (pyStr "result", parse_llm_json raw)], [question]⟩
      | v => ⟨500, errorBody (attrErrMsg v (pyStr "strip")), []⟩
    | v => ⟨500, errorBody (attrErrMsg v (pyStr "get")), []⟩

/-!  ## Auxiliary definitions used by the theorems -/

/-- Does `pat` occur as a contiguous substring of `s`? -/
def hasOcc (pat : List Char) : List Char → Bool
  | [] => false
  | c :: cs => pat.isPrefixOf (c :: cs) || hasOcc pat cs

/-- A suffix a scanned JSON number may be followed by: empty, or starting
with a non-digit (so the greedy digit scan stops exactly at the border). -/
def restOk : List Char → Bool
  | [] => true
  | c :: _ => !isDigit c

/-- The conventionally fenced form of a text: the scenario input
`` ```json\n<t>\n``` `` of the spec. -/
def wrapFence (t : List Char) : List Char :=
  fenceJson ++ '\n' :: t ++ '\n' :: fence

mutual

/-- Apply `pyReplace · pat []` to every string content and every object key
of a value.  `stripFences` acts on an encoded value exactly like this map
(fence occurrences in the encoding live only inside encoded string
literals). -/
def replaceJ (pat : List Char) : JValue → JValue
  | .null => .null
  | .bool b => .bool b
  | .num n => .num n
  | .str s => .str (pyReplace s pat [])
  | .arr xs => .arr (replaceJList pat xs)
  | .obj kvs => .obj (replaceJKVs pat kvs)

/-- Pointwise `replaceJ` on elements. -/
def replaceJList (pat : List Char) : List JValue → List JValue
  | [] => []
  | x :: xs => replaceJ pat x :: replaceJList pat xs

/-- Pointwise `replaceJ` on keys and values. -/
def replaceJKVs (pat : List Char) : List (List Char × JValue) →
    List (List Char × JValue)
  | [] => []
  | (k, v) :: t => (pyReplace k pat [], replaceJ pat v) :: replaceJKVs pat t

end

/-- A trivial pipeline oracle used to instantiate handler theorems. -/
def echoPipeline : List Char → Except PyExn (List Char) := fun q => .ok q

/-- A well-formed mapping whose only value is the three-backtick string; its
encoding contains the generic fence marker, which `parse_llm_json` strips. -/
def fencedStrObj : JValue := .obj [(pyStr "a", .str fence)]

/-- A pipeline answer for the spec's EBITDA scenario: a fenced encoded
object with `answer` and `justification` fields. -/
def ebitdaAnswer : List Char :=
  wrapFence (encode (.obj [(pyStr "answer", .str (pyStr "X")),
                           (pyStr "justification", .str (pyStr "Y"))]))

/-- A pipeline oracle that always returns `ebitdaAnswer`. -/
def ebitdaPipeline : List Char → Except PyExn (List Char) := fun _ => .ok ebitdaAnswer

/-!  ## Lemmas about `isPrefixOf` and `pyReplace` -/

theorem isPrefixOf_append_self (p z : List Char) : p.isPrefixOf (p ++ z) = true := by
  induction p with
  | nil => cases z <;> rfl
  | cons x xs ih => simp [List.isPrefixOf, ih]

theorem length_le_of_isPrefixOf :
    ∀ {p s : List Char}, p.isPrefixOf s = true → p.length ≤ s.length := by
  intro p
  induction p with
  | nil => intro s _; exact Nat.zero_le _
  | cons x xs ih =>
    intro s h
    cases s with
    | nil => simp [List.isPrefixOf] at h
    | cons c cs =>
      simp only [List.isPrefixOf, Bool.and_eq_true] at h
      simp only [List.length_cons]
      exact Nat.succ_le_succ (ih h.2)

theorem isPrefixOf_append_extend :
    ∀ {p a : List Char} (b : List Char), p.isPrefixOf a = true →
      p.isPrefixOf (a ++ b) = true := by
  intro p
  induction p with
  | nil => intro a b _; cases a ++ b <;> rfl
  | cons x xs ih =>
    intro a b h
    cases a with
    | nil => simp [List.isPrefixOf] at h
    | cons c cs =>
      simp only [List.isPrefixOf, Bool.and_eq_true] at h ⊢
      exact ⟨h.1, ih b h.2⟩

theorem isPrefixOf_of_append_le :
    ∀ {p a : List Char} (b : List Char), p.isPrefixOf (a ++ b) = true →
      p.length ≤ a.length → p.isPrefixOf a = true := by
  intro p
  induction p with
  | nil => intro a b _ _; cases a <;> rfl
  | cons x xs ih =>
    intro a b h hl
    cases a with
    | nil => simp at hl
    | cons c cs =>
      simp only [List.cons_append, List.isPrefixOf, Bool.and_eq_true] at h ⊢
      exact ⟨h.1, ih b h.2 (by simpa using hl)⟩

theorem head_mem_of_isPrefixOf_append :
    ∀ {p : List Char} (a : List Char) {c : Char} {bs : List Char},
      p.isPrefixOf (a ++ c :: bs) = true → a.length < p.length → c ∈ p := by
  intro p
  induction p with
  | nil => intro a c bs _ hl; simp at hl
  | cons x xs ih =>
    intro a c bs h hl
    cases a with
    | nil =>
      simp only [List.nil_append, List.isPrefixOf, Bool.and_eq_true, beq_iff_eq] at h
      simp [h.1]
    | cons d as =>
      simp only [List.cons_append, List.isPrefixOf, Bool.and_eq_true] at h
      exact List.mem_cons_of_mem _ (ih as h.2 (by simpa using hl))

theorem eq_append_drop_of_isPrefixOf :
    ∀ {p s : List Char}, p.isPrefixOf s = true → s = p ++ s.drop p.length := by
  intro p
  induction p with
  | nil => intro s _; rfl
  | cons x xs ih =>
    intro s h
    cases s with
    | nil => simp [List.isPrefixOf] at h
    | cons c cs =>
      simp only [List.isPrefixOf, Bool.and_eq_true, beq_iff_eq] at h
      obtain ⟨rfl, h2⟩ := h
      simp only [List.cons_append, List.drop_succ_cons]
      exact congrArg _ (ih h2)

theorem drop_append_le :
    ∀ (n : Nat) (a b : List Char), n ≤ a.length → (a ++ b).drop n = a.drop n ++ b := by
  intro n
  induction n with
  | zero => intro a b _; rfl
  | succ m ih =>
    intro a b h
    cases a with
    | nil => simp at h
    | cons c cs => simpa using ih cs b (by simpa using h)

theorem replaceFuel_congr (pat rep : List Char) :
    ∀ (f1 f2 : Nat) (s : List Char), s.length ≤ f1 → s.length ≤ f2 →
      replaceFuel pat rep f1 s = replaceFuel pat rep f2 s := by
  intro f1
  induction f1 with
  | zero =>
    intro f2 s h1 _
    have hs : s = [] := List.length_eq_zero.mp (Nat.le_zero.mp h1)
    subst hs
    cases f2 <;> rfl
  | succ a ih =>
    intro f2 s h1 h2
    cases s with
    | nil => cases f2 <;> rfl
    | cons c cs =>
      cases f2 with
      | zero => simp at h2
      | succ b =>
        have h1c : cs.length ≤ a := by simpa using h1
        have h2c : cs.length ≤ b := by simpa using h2
        simp only [replaceFuel]
        by_cases hp : pat.isPrefixOf (c :: cs) = true
        · simp only [hp, if_true]
          have hd : (cs.drop (pat.length - 1)).length ≤ cs.length := by
            simp [List.length_drop]
          exact congrArg _ (ih b _ (le_trans hd h1c) (le_trans hd h2c))
        · have hp2 : pat.isPrefixOf (c :: cs) = false := Bool.eq_false_iff.mpr hp
          simp only [hp2, Bool.false_eq_true, if_false]
          exact congrArg _ (ih b cs h1c h2c)

theorem pyReplace_nil (pat rep : List Char) : pyReplace [] pat rep = [] := rfl

theorem pyReplace_cons_pos {pat : List Char} {c : Char} {cs : List Char} (rep : List Char)
    (h : pat.isPrefixOf (c :: cs) = true) :
    pyReplace (c :: cs) pat rep = rep ++ pyReplace (cs.drop (pat.length - 1)) pat rep := by
  show replaceFuel pat rep (cs.length + 1) (c :: cs) = _
  simp only [replaceFuel, h, if_true]
  exact congrArg _ (replaceFuel_congr pat rep cs.length _ _ (by simp [List.length_drop]) (le_refl _))

theorem pyReplace_cons_neg {pat : List Char} {c : Char} {cs : List Char} (rep : List Char)
    (h : pat.isPrefixOf (c :: cs) = false) :
    pyReplace (c :: cs) pat rep = c :: pyReplace cs pat rep := by
  show replaceFuel pat rep (cs.length + 1) (c :: cs) = _
  simp only [replaceFuel, h, Bool.false_eq_true, if_false]
  rfl

theorem isPrefixOf_cons_ne {x : Char} {xs : List Char} {c : Char} (cs : List Char)
    (h : c ≠ x) : (x :: xs).isPrefixOf (c :: cs) = false := by
  simp only [List.isPrefixOf, Bool.and_eq_false_iff, beq_eq_false_iff_ne, ne_eq]
  exact Or.inl fun hxc => h hxc.symm

theorem pyReplace_cons_ne_head {x : Char} {xs : List Char} {c : Char} (cs rep : List Char)
    (h : c ≠ x) :
    pyReplace (c :: cs) (x :: xs) rep = c :: pyReplace cs (x :: xs) rep :=
  pyReplace_cons_neg rep (isPrefixOf_cons_ne cs h)

theorem pyReplace_append_self {pat : List Char} (z rep : List Char) (hp : pat ≠ []) :
    pyReplace (pat ++ z) pat rep = rep ++ pyReplace z pat rep := by
  cases pat with
  | nil => exact absurd rfl hp
  | cons x xs =>
    rw [List.cons_append, pyReplace_cons_pos rep
      (by simpa using isPrefixOf_append_self (x :: xs) z)]
    congr 2
    have : (x :: xs).length - 1 = xs.length := by simp
    rw [this, drop_append_le xs.length xs z (le_refl _), List.drop_length, List.nil_append]

theorem pyReplace_id {pat : List Char} :
    ∀ {s : List Char} (rep : List Char), hasOcc pat s = false → pyReplace s pat rep = s := by
  intro s
  induction s with
  | nil => intro rep _; rfl
  | cons c cs ih =>
    intro rep h
    simp only [hasOcc, Bool.or_eq_false_iff] at h
    rw [pyReplace_cons_neg rep h.1, ih rep h.2]

theorem hasOcc_eq_false_of_head_notin {x : Char} {xs : List Char} :
    ∀ {s : List Char}, (∀ c ∈ s, c ≠ x) → hasOcc (x :: xs) s = false := by
  intro s
  induction s with
  | nil => intro _; rfl
  | cons c cs ih =>
    intro h
    simp only [hasOcc, Bool.or_eq_false_iff]
    exact ⟨isPrefixOf_cons_ne cs (h c (by simp)),
      ih fun d hd => h d (List.mem_cons_of_mem _ hd)⟩

theorem pyReplace_append_split {pat : List Char} :
    ∀ (n : Nat) (a b rep : List Char), a.length ≤ n →
      (∀ c cs, b = c :: cs → c ∉ pat) →
      pyReplace (a ++ b) pat rep = pyReplace a pat rep ++ pyReplace b pat rep := by
  intro n
  induction n with
  | zero =>
    intro a b rep ha _
    have hs : a = [] := List.length_eq_zero.mp (Nat.le_zero.mp ha)
    subst hs
    rfl
  | succ m ih =>
    intro a b rep ha hb
    cases a with
    | nil => rfl
    | cons c cs =>
      by_cases hpre : pat.isPrefixOf ((c :: cs) ++ b) = true
      · by_cases hlen : pat.length ≤ (c :: cs).length
        · have hpa : pat.isPrefixOf (c :: cs) = true :=
            isPrefixOf_of_append_le b hpre hlen
          rw [List.cons_append, pyReplace_cons_pos rep (List.cons_append c cs b ▸ hpre),
            pyReplace_cons_pos rep hpa]
          have hlen2 : pat.length - 1 ≤ cs.length := by
            simp at hlen; omega
          rw [drop_append_le _ cs b hlen2]
          have hm : cs.length ≤ m := by simpa using ha
          rw [ih (cs.drop (pat.length - 1)) b rep
            (by simp only [List.length_drop]; omega) hb, List.append_assoc]
        · exfalso
          cases b with
          | nil =>
            rw [List.append_nil] at hpre
            exact hlen (length_le_of_isPrefixOf hpre)
          | cons d ds =>
            exact hb d ds rfl
              (head_mem_of_isPrefixOf_append (c :: cs) hpre (Nat.lt_of_not_le hlen))

      · have hpre2 : pat.isPrefixOf (c :: (cs ++ b)) = false :=
          Bool.eq_false_iff.mpr fun htrue => hpre (List.cons_append c cs b ▸ htrue)
        have hpa : pat.isPrefixOf (c :: cs) = false :=
          Bool.eq_false_iff.mpr fun htrue => hpre (isPrefixOf_append_extend b htrue)
        rw [List.cons_append, pyReplace_cons_neg rep hpre2, pyReplace_cons_neg rep hpa]
        rw [ih cs b rep (by simpa using ha) hb]
        rfl

/-!  ## Basic facts about `parse_llm_json` -/

theorem parse_llm_json_cases (raw : List Char) :
    parse_llm_json raw =
      match json_loads (stripFences raw) with
      | some v => v
      | none => errObj (stripFences raw) := rfl

theorem parse_llm_json_of_loads {raw : List Char} {v : JValue}
    (h : json_loads (stripFences raw) = some v) : parse_llm_json raw = v := by
  rw [parse_llm_json_cases, h]

theorem parse_llm_json_fallback {raw : List Char}
    (h : json_loads (stripFences raw) = none) :
    parse_llm_json raw = errObj (stripFences raw) := by
  rw [parse_llm_json_cases, h]

/-- C7: `parse_llm_json "not json at all"` returns exactly the mapping
`{"answer": "ERROR", "justification": "LLM returned invalid JSON",
"raw_output": "not json at all"}`, with no other keys. -/
theorem parse_llm_json_not_json_exact :
    parse_llm_json (pyStr "not json at all") =
      JValue.obj [(pyStr "answer", .str (pyStr "ERROR")),
                  (pyStr "justification", .str (pyStr "LLM returned invalid JSON")),
                  (pyStr "raw_output", .str (pyStr "not json at all"))] := rfl

/-- C1 counterexample: on the fenced non-JSON input `` ```json\nBAD\n``` ``
normalization falls back, but the `raw_output` field holds the
fence-stripped text `"\nBAD\n"`, which differs from the original raw text
(the source rebinds `raw` before parsing). -/
theorem raw_output_not_original_cex :
    parse_llm_json (wrapFence (pyStr "BAD")) = errObj ('\n' :: pyStr "BAD" ++ ['\n']) ∧
    '\n' :: pyStr "BAD" ++ ['\n'] ≠ wrapFence (pyStr "BAD") :=
  ⟨rfl, by decide⟩

/-- C1 (amended): for every input on which normalization falls back, the
returned failure object's `raw_output` field is the fence-stripped text
(which equals the original only when the original contained no fence
markers). -/
theorem raw_output_is_stripped (raw : List Char)
    (h : json_loads (stripFences raw) = none) :
    parse_llm_json raw = errObj (stripFences raw) :=
  parse_llm_json_fallback h

theorem raw_output_is_stripped_witness :
    json_loads (stripFences (wrapFence (pyStr "oops"))) = none ∧
    parse_llm_json (wrapFence (pyStr "oops")) =
      errObj (stripFences (wrapFence (pyStr "oops"))) :=
  ⟨rfl, raw_output_is_stripped _ rfl⟩

/-- C2 counterexample: the cleaned text `"[1, 2]"` parses to a JSON list,
and `parse_llm_json` returns that list as-is — not a mapping and not the
fixed failure object. -/
theorem nonmapping_returned_cex :
    parse_llm_json (pyStr "[1, 2]") = JValue.arr [.num 1, .num 2] ∧
    isObj (JValue.arr [.num 1, .num 2]) = false :=
  ⟨rfl, rfl⟩

/-- C2 (amended): whenever the cleaned text parses to any JSON value —
mapping or not — `parse_llm_json` returns that value unchanged; the fixed
failure object is produced only when parsing fails, so the result is not
always a mapping. -/
theorem parsed_value_returned_as_is (raw : List Char) (v : JValue)
    (h : json_loads (stripFences raw) = some v) :
    parse_llm_json raw = v :=
  parse_llm_json_of_loads h

theorem parsed_value_returned_as_is_witness :
    json_loads (stripFences (pyStr "[1, 2]")) = some (JValue.arr [.num 1, .num 2]) ∧
    parse_llm_json (pyStr "[1, 2]") = JValue.arr [.num 1, .num 2] :=
  ⟨rfl, parsed_value_returned_as_is _ _ rfl⟩

/-- C4: `parse_llm_json` is total — in the exception-aware model every
string input yields an ordinary return value (the `except Exception` arm
absorbs the only raising step), equal to the pure model's result. -/
theorem parse_llm_json_total (raw : List Char) :
    parse_llm_json_exc raw = .ok (parse_llm_json raw) := by
  simp only [parse_llm_json_exc, parse_llm_json, json_loads_exc]
  cases json_loads (pyReplace (pyReplace raw fenceJson []) fence []) <;> rfl

/-- C5 counterexample: the input `"[]"` parses to an empty list, which is
returned as-is and has neither an `answer` nor a `justification` key. -/
theorem missing_keys_cex :
    parse_llm_json (pyStr "[]") = JValue.arr [] ∧
    objHasKey (JValue.arr []) (pyStr "answer") = false ∧
    objHasKey (JValue.arr []) (pyStr "justification") = false :=
  ⟨rfl, rfl, rfl⟩

/-- C5 (amended): for every input whose cleaned text does not parse as
JSON, the returned object contains at least the `answer` and
`justification` keys; when the cleaned text parses, the parsed value is
returned as-is and need not contain them. -/
theorem fallback_has_keys (raw : List Char)
    (h : json_loads (stripFences raw) = none) :
    objHasKey (parse_llm_json raw) (pyStr "answer") = true ∧
    objHasKey (parse_llm_json raw) (pyStr "justification") = true := by
  rw [parse_llm_json_fallback h]
  exact ⟨rfl, rfl⟩

theorem fallback_has_keys_witness :
    json_loads (stripFences (pyStr "zzz")) = none ∧
    objHasKey (parse_llm_json (pyStr "zzz")) (pyStr "answer") = true ∧
    objHasKey (parse_llm_json (pyStr "zzz")) (pyStr "justification") = true :=
  by
  refine ⟨rfl, ?_, ?_⟩
  · exact (fallback_has_keys (pyStr "zzz") rfl).1
  · exact (fallback_has_keys (pyStr "zzz") rfl).2

/-!  ## Claims about the `/chat` handler -/

/-- C3 counterexample: an absent (or undecodable) payload makes
`request.get_json()` raise inside the `try`, so the handler answers 500 —
not the claimed 400 — though the pipeline is indeed never invoked. -/
theorem absent_payload_cex :
    (chat echoPipeline none).status = 500 ∧
    (chat echoPipeline none).status ≠ 400 ∧
    (chat echoPipeline none).calls = [] :=
  ⟨rfl, by decide, rfl⟩

/-- C3 (amended): for every request whose payload is a mapping that lacks
the `question` field (the missing field defaults to the empty string) or
whose `question` value trims to the empty string, the handler responds 400
with `{"error": "Empty question"}` and the pipeline is never invoked; an
absent or non-mapping payload instead reaches the catch-all 500 path, also
without invoking the pipeline. -/
theorem empty_question_400 (p : List Char → Except PyExn (List Char))
    (kvs : List (List Char × JValue))
    (h : lookupKey kvs kQuestion = none ∨
         ∃ s, lookupKey kvs kQuestion = some (.str s) ∧ pyStrip s = []) :
    chat p (some (.obj kvs)) = ⟨400, errorBody (pyStr "Empty question"), []⟩ := by
  rcases h with h | ⟨s, h, hs⟩
  · simp [chat, h, pyStrip]
  · simp [chat, h, hs]

theorem empty_question_400_witness :
    (lookupKey ([] : List (List Char × JValue)) kQuestion = none ∨
      ∃ s, lookupKey ([] : List (List Char × JValue)) kQuestion = some (.str s) ∧
        pyStrip s = []) ∧
    chat echoPipeline (some (.obj [])) = ⟨400, errorBody (pyStr "Empty question"), []⟩ :=
  ⟨Or.inl rfl, empty_question_400 echoPipeline [] (Or.inl rfl)⟩

/-- C8: for every request whose `question` field trims to a nonempty string
and whose pipeline call returns raw text `r`, the handler responds 200 with
`{"question": <trimmed text>, "result": <parse_llm_json r>}` and the
pipeline is invoked exactly once, with the trimmed text.  (The witness
instantiates `r` with the spec's fenced `` ```json ``-wrapped object and
evaluates the result to the parsed, fence-stripped object.) -/
theorem chat_success (p : List Char → Except PyExn (List Char))
    (kvs : List (List Char × JValue)) (s r : List Char)
    (hq : lookupKey kvs kQuestion = some (.str s))
    (hne : pyStrip s ≠ [])
    (hp : p (pyStrip s) = .ok r) :
    chat p (some (.obj kvs)) =
      ⟨200, .obj [(kQuestion, .str (pyStrip s)), (pyStr "result", parse_llm_json r)],
       [pyStrip s]⟩ := by
  simp [chat, hq, hne, hp]

theorem chat_success_witness :
    lookupKey [(kQuestion, JValue.str (pyStr "What is EBITDA?"))] kQuestion =
      some (.str (pyStr "What is EBITDA?")) ∧
    pyStrip (pyStr "What is EBITDA?") ≠ [] ∧
    ebitdaPipeline (pyStrip (pyStr "What is EBITDA?")) = .ok ebitdaAnswer ∧
    chat ebitdaPipeline (some (.obj [(kQuestion, .str (pyStr "What is EBITDA?"))])) =
      ⟨200, .obj [(kQuestion, .str (pyStr "What is EBITDA?")),
                  (pyStr "result", .obj [(pyStr "answer", .str (pyStr "X")),
                                         (pyStr "justification", .str (pyStr "Y"))])],
       [pyStr "What is EBITDA?"]⟩ := by
  refine ⟨rfl, by decide, rfl, ?_⟩
  rw [chat_success ebitdaPipeline [(kQuestion, JValue.str (pyStr "What is EBITDA?"))]
    (pyStr "What is EBITDA?") ebitdaAnswer rfl (by decide) rfl]
  rfl

/-- C10: for every request whose payload is a mapping binding `question` to
a non-string value, `.strip()` raises `AttributeError`, the catch-all arm
answers 500 with the exception's message, and the pipeline is never
invoked — the case is classified as a server failure, not a 400 validation
error. -/
theorem nonstring_question_500 (p : List Char → Except PyExn (List Char))
    (kvs : List (List Char × JValue)) (v : JValue)
    (hq : lookupKey kvs kQuestion = some v) (hns : isStr v = false) :
    chat p (some (.obj kvs)) = ⟨500, errorBody (attrErrMsg v (pyStr "strip")), []⟩ := by
  cases v with
  | str s => simp [isStr] at hns
  | null => simp [chat, hq]
  | bool b => simp [chat, hq]
  | num n => simp [chat, hq]
  | arr xs => simp [chat, hq]
  | obj kvs2 => simp [chat, hq]

theorem nonstring_question_500_witness :
    lookupKey [(kQuestion, JValue.num 3)] kQuestion = some (.num 3) ∧
    isStr (JValue.num 3) = false ∧
    chat echoPipeline (some (.obj [(kQuestion, .num 3)])) =
      ⟨500, errorBody (attrErrMsg (.num 3) (pyStr "strip")), []⟩ :=
  ⟨rfl, rfl, nonstring_question_500 echoPipeline _ _ rfl rfl⟩

/-!  ## Round-trip of the string escaping -/

theorem char_toNat_ofNat {n : Nat} (h : n.isValidChar) : (Char.ofNat n).toNat = n := by
  rw [Char.ofNat, dif_pos h]
  rfl

theorem char_toNat_ofNat_lt {n : Nat} (h : n < 55296) : (Char.ofNat n).toNat = n :=
  char_toNat_ofNat (Or.inl h)

theorem char_valid_cases (c : Char) :
    c.toNat < 55296 ∨ (57343 < c.toNat ∧ c.toNat < 1114112) := by
  have h := c.valid
  rcases h with h | ⟨h1, h2⟩
  · exact Or.inl h
  · exact Or.inr ⟨h1, h2⟩

theorem char_eq_of_toNat_eq {c : Char} {n : Nat} (h : c.toNat = n) : Char.ofNat n = c := by
  rw [← h, Char.ofNat_toNat]

theorem char_ne_of_toNat_ne {c d : Char} (h : c.toNat ≠ d.toNat) : c ≠ d :=
  fun he => h (congrArg Char.toNat he)

theorem hexVal_hexDigitChar {d : Nat} (h : d < 16) :
    hexVal (hexDigitChar d) = some d := by
  unfold hexVal hexDigitChar
  by_cases h10 : d < 10
  · rw [if_pos h10, char_toNat_ofNat_lt (by omega), if_pos (by omega)]
    congr 1
    omega
  · rw [if_neg h10, char_toNat_ofNat_lt (by omega), if_neg (by omega), if_pos (by omega)]
    congr 1
    omega

theorem hex4Val_hex4 {n : Nat} (h : n < 65536) :
    hex4Val (hexDigitChar (n / 4096 % 16)) (hexDigitChar (n / 256 % 16))
      (hexDigitChar (n / 16 % 16)) (hexDigitChar (n % 16)) = some n := by
  unfold hex4Val
  rw [hexVal_hexDigitChar (Nat.mod_lt _ (by omega)),
    hexVal_hexDigitChar (Nat.mod_lt _ (by omega)),
    hexVal_hexDigitChar (Nat.mod_lt _ (by omega)),
    hexVal_hexDigitChar (Nat.mod_lt _ (by omega))]
  show some (n / 4096 % 16 * 4096 + n / 256 % 16 * 256 + n / 16 % 16 * 16 + n % 16) = some n
  congr 1
  omega

theorem decodeEscape_u (h1 h2 h3 h4 : Char) (r1 : List Char) :
    decodeEscape 'u' (h1 :: h2 :: h3 :: h4 :: r1) =
      match hex4Val h1 h2 h3 h4 with
      | none => none
      | some n =>
        if n < 55296 ∨ 57344 ≤ n then some (Char.ofNat n, r1)
        else if n < 56320 then decodeLowSurrogate n r1
        else none := rfl

theorem decodeLowSurrogate_cons (n : Nat) (g1 g2 g3 g4 : Char) (r2 : List Char) :
    decodeLowSurrogate n ('\\' :: 'u' :: g1 :: g2 :: g3 :: g4 :: r2) =
      match hex4Val g1 g2 g3 g4 with
      | some m =>
        if 56320 ≤ m ∧ m < 57344 then
          some (Char.ofNat (65536 + (n - 55296) * 1024 + (m - 56320)), r2)
        else none
      | none => none := rfl

theorem parseStrBody_backslash (fuel : Nat) (e : Char) (r : List Char) :
    parseStrBody (fuel + 1) ('\\' :: e :: r) =
      match decodeEscape e r with
      | some (d, r2) => (parseStrBody fuel r2).map fun p => (d :: p.1, p.2)
      | none => none := rfl

theorem parseStrBody_escChar (c : Char) (z : List Char) (fuel : Nat) :
    parseStrBody (fuel + 1) (escChar c ++ z) =
      (parseStrBody fuel z).map fun p => (c :: p.1, p.2) := by
  by_cases h1 : c = '"'
  · subst h1; rfl
  · by_cases h2 : c = '\\'
    · subst h2; rfl
    · by_cases h3 : c.toNat = 8
      · rw [escChar, if_neg h1, if_neg h2, if_pos h3]
        show (parseStrBody fuel z).map _ = _
        rw [char_eq_of_toNat_eq h3]
      · by_cases h4 : c.toNat = 9
        · rw [escChar, if_neg h1, if_neg h2, if_neg h3, if_pos h4]
          show (parseStrBody fuel z).map _ = _
          rw [char_eq_of_toNat_eq h4]
        · by_cases h5 : c.toNat = 10
          · rw [escChar, if_neg h1, if_neg h2, if_neg h3, if_neg h4, if_pos h5]
            show (parseStrBody fuel z).map _ = _
            rw [char_eq_of_toNat_eq h5]
          · by_cases h6 : c.toNat = 12
            · rw [escChar, if_neg h1, if_neg h2, if_neg h3, if_neg h4, if_neg h5, if_pos h6]
              show (parseStrBody fuel z).map _ = _
              rw [char_eq_of_toNat_eq h6]
            · by_cases h7 : c.toNat = 13
              · rw [escChar, if_neg h1, if_neg h2, if_neg h3, if_neg h4, if_neg h5,
                  if_neg h6, if_pos h7]
                show (parseStrBody fuel z).map _ = _
                rw [char_eq_of_toNat_eq h7]
              · by_cases h8 : 32 ≤ c.toNat ∧ c.toNat ≤ 126
                · rw [escChar, if_neg h1, if_neg h2, if_neg h3, if_neg h4, if_neg h5,
                    if_neg h6, if_neg h7, if_pos h8]
                  show parseStrBody (fuel + 1) (c :: z) = _
                  simp only [parseStrBody]
                  rw [if_neg h1, if_neg h2, if_neg (by omega : ¬c.toNat < 32)]
                · by_cases h9 : c.toNat < 65536
                  · rw [escChar, if_neg h1, if_neg h2, if_neg h3, if_neg h4, if_neg h5,
                      if_neg h6, if_neg h7, if_neg h8, if_pos h9]
                    have hv : c.toNat < 55296 ∨ 57344 ≤ c.toNat := by
                      rcases char_valid_cases c with h | ⟨h', _⟩
                      · exact Or.inl h
                      · exact Or.inr (by omega)
                    have hdec : decodeEscape 'u' (hex4 c.toNat ++ z) = some (c, z) := by
                      simp only [hex4, List.cons_append, List.nil_append]
                      rw [decodeEscape_u, hex4Val_hex4 h9]
                      show (if c.toNat < 55296 ∨ 57344 ≤ c.toNat then
                          some (Char.ofNat c.toNat, z)
                        else if c.toNat < 56320 then decodeLowSurrogate c.toNat z
                        else none) = some (c, z)
                      rw [if_pos hv, Char.ofNat_toNat]
                    simp only [List.cons_append]
                    rw [parseStrBody_backslash, hdec]
                  · rw [escChar, if_neg h1, if_neg h2, if_neg h3, if_neg h4, if_neg h5,
                      if_neg h6, if_neg h7, if_neg h8, if_neg h9]
                    have hval : 57343 < c.toNat ∧ c.toNat < 1114112 := by
                      rcases char_valid_cases c with h | h
                      · omega
                      · exact h
                    have hdiv : (c.toNat - 65536) / 1024 < 1024 := by omega
                    have hmod : (c.toNat - 65536) % 1024 < 1024 :=
                      Nat.mod_lt _ (by omega)
                    have hlow : decodeLowSurrogate (55296 + (c.toNat - 65536) / 1024)
                        ('\\' :: 'u' :: (hex4 (56320 + (c.toNat - 65536) % 1024) ++ z)) =
                        some (c, z) := by
                      simp only [hex4, List.cons_append, List.nil_append]
                      rw [decodeLowSurrogate_cons,
                        hex4Val_hex4 (by omega : 56320 + (c.toNat - 65536) % 1024 < 65536)]
                      show (if 56320 ≤ 56320 + (c.toNat - 65536) % 1024 ∧
                            56320 + (c.toNat - 65536) % 1024 < 57344 then
                          some (Char.ofNat (65536 +
                            (55296 + (c.toNat - 65536) / 1024 - 55296) * 1024 +
                            (56320 + (c.toNat - 65536) % 1024 - 56320)), z)
                        else none) = some (c, z)
                      rw [if_pos (by omega)]
                      have harith : 65536 + (55296 + (c.toNat - 65536) / 1024 - 55296) * 1024 +
                          (56320 + (c.toNat - 65536) % 1024 - 56320) = c.toNat := by
                        have := Nat.div_add_mod (c.toNat - 65536) 1024
                        omega
                      rw [harith, Char.ofNat_toNat]
                    have hdec : decodeEscape 'u'
                        (hex4 (55296 + (c.toNat - 65536) / 1024) ++
                          ('\\' :: 'u' :: (hex4 (56320 + (c.toNat - 65536) % 1024) ++ z))) =
                        some (c, z) := by
                      rw [hex4]
                      simp only [List.cons_append, List.nil_append]
                      rw [decodeEscape_u,
                        hex4Val_hex4 (by omega : 55296 + (c.toNat - 65536) / 1024 < 65536)]
                      show (if 55296 + (c.toNat - 65536) / 1024 < 55296 ∨
            57344 ≤ 55296 + (c.toNat - 65536) / 1024 then
                          some (Char.ofNat (55296 + (c.toNat - 65536) / 1024),
                            '\\' :: 'u' :: (hex4 (56320 + (c.toNat - 65536) % 1024) ++ z))
                        else if 55296 + (c.toNat - 65536) / 1024 < 56320 then
                          decodeLowSurrogate (55296 + (c.toNat - 65536) / 1024)
                            ('\\' :: 'u' :: (hex4 (56320 + (c.toNat - 65536) % 1024) ++ z))
                        else none) = some (c, z)
                      rw [if_neg (by omega), if_pos (by omega), hlow]
                    simp only [List.cons_append, List.append_assoc]
                    rw [parseStrBody_backslash, hdec]
theorem parseStrBody_escStr :
    ∀ (s rest : List Char) (fuel : Nat), s.length < fuel →
      parseStrBody fuel (escStr s ++ '"' :: rest) = some (s, rest) := by
  intro s
  induction s with
  | nil =>
    intro rest fuel h
    cases fuel with
    | zero => omega
    | succ f => rfl
  | cons c t ih =>
    intro rest fuel h
    cases fuel with
    | zero => omega
    | succ f =>
      rw [escStr, List.append_assoc, parseStrBody_escChar c (escStr t ++ '"' :: rest) f,
        ih rest f (by simpa using h)]
      rfl

/-!  ## Round-trip of the decimal rendering -/

theorem natRevDigits_zero (fuel : Nat) : natRevDigits fuel 0 = [] := by
  cases fuel with
  | zero => rfl
  | succ f => simp [natRevDigits]

theorem natRevDigits_all_digits :
    ∀ (fuel n : Nat), ∀ c ∈ natRevDigits fuel n, isDigit c = true := by
  intro fuel
  induction fuel with
  | zero => intro n c hc; simp [natRevDigits] at hc
  | succ f ih =>
    intro n c hc
    rw [natRevDigits] at hc
    by_cases hn : n = 0
    · simp [hn] at hc
    · rw [if_neg hn] at hc
      rcases List.mem_cons.mp hc with h | h
      · subst h
        have hlt : 48 + n % 10 < 55296 := by
          have := Nat.mod_lt n (show 0 < 10 by omega)
          omega
        simp only [isDigit, char_toNat_ofNat_lt hlt]
        have := Nat.mod_lt n (show 0 < 10 by omega)
        simp only [Bool.and_eq_true, decide_eq_true_eq]
        omega
      · exact ih _ c h

theorem natRevDigits_msd :
    ∀ (fuel n : Nat), 0 < n → n ≤ fuel →
      ∃ d ds, (natRevDigits fuel n).reverse = d :: ds ∧ d ≠ '0' := by
  intro fuel
  induction fuel with
  | zero => intro n h1 h2; omega
  | succ f ih =>
    intro n h1 h2
    rw [natRevDigits, if_neg (by omega : ¬n = 0)]
    by_cases h10 : n / 10 = 0
    · refine ⟨Char.ofNat (48 + n % 10), [], ?_, ?_⟩
      · rw [h10, natRevDigits_zero]
        rfl
      · have hm : n % 10 ≠ 0 := by omega
        have hlt : 48 + n % 10 < 55296 := by
          have := Nat.mod_lt n (show 0 < 10 by omega)
          omega
        apply char_ne_of_toNat_ne
        rw [char_toNat_ofNat_lt hlt]
        show 48 + n % 10 ≠ 48
        omega
    · obtain ⟨d, ds, hrev, hd0⟩ := ih (n / 10) (by omega) (by omega)
      refine ⟨d, ds ++ [Char.ofNat (48 + n % 10)], ?_, hd0⟩
      rw [List.reverse_cons, hrev]
      rfl

theorem natRevDigits_foldl :
    ∀ (fuel n : Nat), n ≤ fuel → ∀ acc : Nat,
      ((natRevDigits fuel n).reverse).foldl (fun a d => a * 10 + digitVal d) acc =
        acc * 10 ^ (natRevDigits fuel n).length + n := by
  intro fuel
  induction fuel with
  | zero =>
    intro n h acc
    have : n = 0 := by omega
    subst this
    simp [natRevDigits]
  | succ f ih =>
    intro n h acc
    by_cases hn : n = 0
    · subst hn
      simp [natRevDigits]
    · rw [natRevDigits, if_neg hn, List.reverse_cons, List.foldl_append,
        ih (n / 10) (by omega) acc]
      have hlt : 48 + n % 10 < 55296 := by
        have := Nat.mod_lt n (show 0 < 10 by omega)
        omega
      simp only [List.foldl_cons, List.foldl_nil, List.length_cons, digitVal,
        char_toNat_ofNat_lt hlt, pow_succ]
      have hgen : ∀ A : Nat, (A + n / 10) * 10 + (48 + n % 10 - 48) = A * 10 + n := by
        intro A
        omega
      rw [← Nat.mul_assoc]
      exact hgen (acc * 10 ^ (natRevDigits f (n / 10)).length)

theorem takeWhile_append_all (p : Char → Bool) :
    ∀ (l1 l2 : List Char), (∀ c ∈ l1, p c = true) →
      (l1 ++ l2).takeWhile p = l1 ++ l2.takeWhile p ∧
      (l1 ++ l2).dropWhile p = l2.dropWhile p := by
  intro l1
  induction l1 with
  | nil => intro l2 _; exact ⟨rfl, rfl⟩
  | cons c t ih =>
    intro l2 h
    have hc : p c = true := h c (by simp)
    have := ih l2 fun d hd => h d (List.mem_cons_of_mem _ hd)
    constructor
    · rw [List.cons_append, List.takeWhile_cons, hc]
      simp [this.1]
    · rw [List.cons_append, List.dropWhile_cons, hc]
      simp [this.2]

theorem takeWhile_restOk {l : List Char} (h : restOk l = true) :
    l.takeWhile isDigit = [] ∧ l.dropWhile isDigit = l := by
  cases l with
  | nil => exact ⟨rfl, rfl⟩
  | cons c t =>
    have hc : isDigit c = false := by
      have : (!isDigit c) = true := h
      simpa using this
    rw [List.takeWhile_cons, List.dropWhile_cons, hc]
    exact ⟨rfl, rfl⟩

theorem parseNat_natRepr (n : Nat) (rest : List Char) (h : restOk rest = true) :
    parseNat (natRepr n ++ rest) = some (n, rest) := by
  by_cases hn : n = 0
  · subst hn
    rfl
  · obtain ⟨d, ds, hrev, hd0⟩ := natRevDigits_msd n n (by omega) (le_refl _)
    rw [natRepr, if_neg hn, hrev]
    have hdig : ∀ c ∈ d :: ds, isDigit c = true := by
      intro c hc
      have : c ∈ (natRevDigits n n).reverse := hrev ▸ hc
      exact natRevDigits_all_digits n n c (List.mem_reverse.mp this)
    have hfold : (d :: ds).foldl (fun a d => a * 10 + digitVal d) 0 = n := by
      have := natRevDigits_foldl n n (le_refl _) 0
      rw [hrev] at this
      simpa using this
    show parseNat (d :: (ds ++ rest)) = some (n, rest)
    simp only [parseNat]
    rw [if_neg hd0, if_pos (hdig d (by simp))]
    have htw := takeWhile_append_all isDigit ds rest
      (fun c hc => hdig c (List.mem_cons_of_mem _ hc))
    have hro := takeWhile_restOk h
    rw [htw.1, htw.2, hro.1, hro.2, List.append_nil]
    congr 1
    rw [Prod.mk.injEq]
    refine ⟨?_, rfl⟩
    have : ds.foldl (fun a d => a * 10 + digitVal d) (digitVal d) = n := by
      rw [← hfold, List.foldl_cons]
      congr 1
      simp
    exact this

/-!  ## Entry shapes of the value scanner -/

theorem parseVal_str_entry (fuel : Nat) (rest : List Char) :
    parseVal (fuel + 1) ('"' :: rest) =
      match parseStrBody (rest.length + 1) rest with
      | some (cs, r) => some (.str cs, r)
      | none => none := rfl

theorem parseVal_obj_entry (fuel : Nat) (rest : List Char) :
    parseVal (fuel + 1) (lbrace :: rest) =
      match skipWs rest with
      | c2 :: r2 =>
        if c2 = rbrace then some (.obj [], r2) else parseObjItems fuel (c2 :: r2) []
      | [] => none := rfl

theorem parseVal_arr_entry (fuel : Nat) (rest : List Char) :
    parseVal (fuel + 1) ('[' :: rest) =
      match skipWs rest with
      | c2 :: r2 =>
        if c2 = ']' then some (.arr [], r2) else parseArrItems fuel (c2 :: r2) []
      | [] => none := rfl

theorem parseVal_neg_entry (fuel : Nat) (rest : List Char) :
    parseVal (fuel + 1) ('-' :: rest) =
      (parseNat rest).map fun p => (.num (-(p.1 : Int)), p.2) := rfl

theorem parseVal_digit_entry {c : Char} (fuel : Nat) (rest : List Char)
    (hd : isDigit c = true) :
    parseVal (fuel + 1) (c :: rest) =
      (parseNat (c :: rest)).map fun p => (.num (p.1 : Int), p.2) := by
  have hb : 48 ≤ c.toNat ∧ c.toNat ≤ 57 := by
    simpa [isDigit, Bool.and_eq_true, decide_eq_true_eq] using hd
  have ne : ∀ d : Char, ¬(48 ≤ d.toNat ∧ d.toNat ≤ 57) → c ≠ d := by
    intro d hd' he
    exact hd' (he ▸ hb)
  simp only [parseVal]
  rw [if_neg (ne '"' (by decide)), if_neg (ne lbrace (by decide)),
    if_neg (ne '[' (by decide)), if_neg (ne 'n' (by decide)),
    if_neg (ne 't' (by decide)), if_neg (ne 'f' (by decide)),
    if_neg (ne '-' (by decide)), if_pos hd]

/-!  ## Shape facts used by the scanner round-trip -/

theorem skipWs_cons_not {c : Char} (z : List Char) (h : isJsonWs c = false) :
    skipWs (c :: z) = c :: z := by
  simp [skipWs, List.dropWhile_cons, h]

theorem skipWs_space (z : List Char) : skipWs (' ' :: z) = skipWs z := rfl

theorem skipWs_newline (z : List Char) : skipWs ('\n' :: z) = skipWs z := rfl

theorem escChar_length_pos (c : Char) : 0 < (escChar c).length := by
  unfold escChar
  repeat' split
  all_goals simp

theorem escStr_length_ge : ∀ s : List Char, s.length ≤ (escStr s).length := by
  intro s
  induction s with
  | nil => simp [escStr]
  | cons c t ih =>
    rw [escStr]
    simp only [List.length_append, List.length_cons]
    have := escChar_length_pos c
    omega

theorem isJsonWs_eq_false_of_digit {d : Char} (h : isDigit d = true) :
    isJsonWs d = false := by
  have hb : 48 ≤ d.toNat ∧ d.toNat ≤ 57 := by
    simpa [isDigit, Bool.and_eq_true, decide_eq_true_eq] using h
  have h1 : d ≠ ' ' := char_ne_of_toNat_ne (by intro he; rw [he] at hb; exact absurd hb (by decide))
  have h2 : d ≠ '\t' := char_ne_of_toNat_ne (by intro he; rw [he] at hb; exact absurd hb (by decide))
  have h3 : d ≠ '\n' := char_ne_of_toNat_ne (by intro he; rw [he] at hb; exact absurd hb (by decide))
  have h4 : d ≠ '\r' := char_ne_of_toNat_ne (by intro he; rw [he] at hb; exact absurd hb (by decide))
  simp [isJsonWs, h1, h2, h3, h4]

theorem encode_head (v : JValue) :
    ∃ c cs, encode v = c :: cs ∧ isJsonWs c = false ∧ c ≠ ']' ∧ c ≠ rbrace := by
  cases v with
  | null => exact ⟨'n', pyStr "ull", rfl, by decide⟩
  | bool b =>
    cases b with
    | true => exact ⟨'t', pyStr "rue", rfl, by decide⟩
    | false => exact ⟨'f', pyStr "alse", rfl, by decide⟩
  | num n =>
    cases n with
    | ofNat m =>
      by_cases hm : m = 0
      · subst hm
        exact ⟨'0', [], rfl, by decide, by decide, by decide⟩
      · obtain ⟨d, ds, hrev, _⟩ := natRevDigits_msd m m (by omega) (le_refl _)
        have hd : isDigit d = true := by
          have : d ∈ (natRevDigits m m).reverse := by rw [hrev]; simp
          exact natRevDigits_all_digits m m d (List.mem_reverse.mp this)
        have hb : 48 ≤ d.toNat ∧ d.toNat ≤ 57 := by
          simpa [isDigit, Bool.and_eq_true, decide_eq_true_eq] using hd
        refine ⟨d, ds, ?_, isJsonWs_eq_false_of_digit hd, ?_, ?_⟩
        · show intRepr (Int.ofNat m) = d :: ds
          rw [intRepr]
          · rw [natRepr, if_neg hm, hrev]
        · exact char_ne_of_toNat_ne (by intro he; rw [he] at hb; exact absurd hb (by decide))
        · exact char_ne_of_toNat_ne (by intro he; rw [he] at hb; exact absurd hb (by decide))
    | negSucc m => exact ⟨'-', natRepr (m + 1), rfl, by decide⟩
  | str s => exact ⟨'"', escStr s ++ ['"'], rfl, by decide⟩
  | arr xs =>
    cases xs with
    | nil => exact ⟨'[', [']'], rfl, by decide⟩
    | cons x t => exact ⟨'[', (encode x ++ encodeItems t) ++ [']'], rfl, by decide⟩
  | obj kvs =>
    cases kvs with
    | nil => exact ⟨lbrace, [rbrace], rfl, by decide⟩
    | cons kv t =>
      exact ⟨lbrace, (encodeMember kv ++ encodeMembers t) ++ [rbrace], rfl, by decide⟩

theorem encode_length_pos (v : JValue) : 0 < (encode v).length := by
  obtain ⟨c, cs, hx, _, _, _⟩ := encode_head v
  rw [hx]
  simp

theorem skipWs_encode (v : JValue) (z : List Char) :
    skipWs (encode v ++ z) = encode v ++ z := by
  obtain ⟨c, cs, hx, hws, _, _⟩ := encode_head v
  rw [hx, List.cons_append, skipWs_cons_not _ hws]

theorem restOk_items (xs : List JValue) (rest : List Char) :
    restOk (encodeItems xs ++ ']' :: rest) = true := by
  cases xs with
  | nil => rfl
  | cons y ys => rfl

theorem restOk_members (kvs : List (List Char × JValue)) (rest : List Char) :
    restOk (encodeMembers kvs ++ rbrace :: rest) = true := by
  cases kvs with
  | nil => rfl
  | cons kv t => rfl

theorem parseObjItems_entry (g : Nat) (rest : List Char)
    (acc : List (List Char × JValue)) :
    parseObjItems (g + 1) ('"' :: rest) acc =
      match parseStrBody (rest.length + 1) rest with
      | some (k, r1) =>
        match skipWs r1 with
        | ':' :: r2 =>
          match parseVal g (skipWs r2) with
          | some (v, r3) =>
            match skipWs r3 with
            | c4 :: r4 =>
              if c4 = rbrace then some (.obj (insertKV acc k v), r4)
              else if c4 = ',' then parseObjItems g (skipWs r4) (insertKV acc k v)
              else none
            | [] => none
          | none => none
        | _ => none
      | none => none := rfl

theorem skipWs_members (kvs : List (List Char × JValue)) (rest : List Char) :
    skipWs (encodeMembers kvs ++ rbrace :: rest) = encodeMembers kvs ++ rbrace :: rest := by
  cases kvs with
  | nil => exact skipWs_cons_not _ (by decide)
  | cons kv t => exact skipWs_cons_not _ (by decide)

theorem skipWs_items (xs : List JValue) (rest : List Char) :
    skipWs (encodeItems xs ++ ']' :: rest) = encodeItems xs ++ ']' :: rest := by
  cases xs with
  | nil => exact skipWs_cons_not _ (by decide)
  | cons x t => exact skipWs_cons_not _ (by decide)

/-!  ## The scanner inverts the encoder (up to `dict` normalization) -/

mutual

theorem parseVal_enc : ∀ (v : JValue) (fuel : Nat) (rest : List Char),
    (encode v).length ≤ fuel → restOk rest = true →
    parseVal fuel (encode v ++ rest) = some (jnorm v, rest)
  | .null, fuel, rest, hf, _ => by
    cases fuel with
    | zero => exact absurd hf (by decide)
    | succ f => rfl
  | .bool true, fuel, rest, hf, _ => by
    cases fuel with
    | zero => exact absurd hf (by decide)
    | succ f => rfl
  | .bool false, fuel, rest, hf, _ => by
    cases fuel with
    | zero => exact absurd hf (by decide)
    | succ f => rfl
  | .num (.ofNat m), fuel, rest, hf, hr => by
    cases fuel with
    | zero =>
      have := encode_length_pos (.num (.ofNat m))
      omega
    | succ f =>
      by_cases hm : m = 0
      · subst hm
        show parseVal (f + 1) ('0' :: rest) = some (.num 0, rest)
        rw [parseVal_digit_entry f rest (by decide)]
        rfl
      · obtain ⟨d, ds, hrev, hd0⟩ := natRevDigits_msd m m (by omega) (le_refl _)
        have hd : isDigit d = true := by
          have : d ∈ (natRevDigits m m).reverse := by rw [hrev]; simp
          exact natRevDigits_all_digits m m d (List.mem_reverse.mp this)
        have hnat : natRepr m = d :: ds := by rw [natRepr, if_neg hm, hrev]
        have hp : parseNat (natRepr m ++ rest) = some (m, rest) := parseNat_natRepr m rest hr
        rw [hnat, List.cons_append] at hp
        show parseVal (f + 1) (natRepr m ++ rest) = some (.num (Int.ofNat m), rest)
        rw [hnat, List.cons_append, parseVal_digit_entry f _ hd, hp]
        rfl
  | .num (.negSucc m), fuel, rest, hf, hr => by
    cases fuel with
    | zero =>
      have := encode_length_pos (.num (.negSucc m))
      omega
    | succ f =>
      show parseVal (f + 1) ('-' :: (natRepr (m + 1) ++ rest)) =
        some (.num (Int.negSucc m), rest)
      rw [parseVal_neg_entry, parseNat_natRepr (m + 1) rest hr]
      show some (JValue.num (-((m + 1 : Nat) : Int)), rest) =
        some (.num (Int.negSucc m), rest)
      have : (-((m + 1 : Nat) : Int)) = Int.negSucc m := by
        rw [Int.negSucc_eq]
        push_cast
        ring
      rw [this]

  | .str s, fuel, rest, hf, _ => by
    cases fuel with
    | zero =>
      have := encode_length_pos (.str s)
      omega
    | succ f =>
      have hshape : encode (.str s) ++ rest = '"' :: (escStr s ++ '"' :: rest) := by
        show ('"' :: (escStr s ++ ['"'])) ++ rest = _
        simp
      rw [hshape, parseVal_str_entry, parseStrBody_escStr s rest _ ?hb]
      case hb =>
        have := escStr_length_ge s
        simp only [List.length_append, List.length_cons]
        omega
      rfl
  | .arr [], fuel, rest, hf, _ => by
    cases fuel with
    | zero => exact absurd hf (by decide)
    | succ f => rfl
  | .arr (x :: xs), fuel, rest, hf, hr => by
    cases fuel with
    | zero =>
      have := encode_length_pos (.arr (x :: xs))
      omega
    | succ f =>
      have hshape : encode (.arr (x :: xs)) ++ rest =
          '[' :: (encode x ++ (encodeItems xs ++ ']' :: rest)) := by
        show ('[' :: (encode x ++ encodeItems xs) ++ [']']) ++ rest = _
        simp
      have hlf : (encode x).length + (encodeItems xs).length + 1 ≤ f := by
        have hlen0 : (encode (JValue.arr (x :: xs))).length =
            (encode x).length + (encodeItems xs).length + 2 := by
          show ('[' :: (encode x ++ encodeItems xs) ++ [']']).length = _
          simp only [List.length_append, List.length_cons, List.length_nil]
        omega
      rw [hshape, parseVal_arr_entry]
      obtain ⟨c, cs, hx, hws, hbr, _⟩ := encode_head x
      rw [hx, List.cons_append, skipWs_cons_not _ hws]
      show (if c = ']' then some (.arr [], cs ++ (encodeItems xs ++ ']' :: rest))
            else parseArrItems f (c :: (cs ++ (encodeItems xs ++ ']' :: rest))) []) =
        some (jnorm (.arr (x :: xs)), rest)
      rw [if_neg hbr, ← List.cons_append, ← hx]
      exact parseArrItems_enc x xs [] f rest hlf hr
  | .obj [], fuel, rest, hf, _ => by
    cases fuel with
    | zero => exact absurd hf (by decide)
    | succ f => rfl
  | .obj ((k, v) :: kvs), fuel, rest, hf, hr => by
    cases fuel with
    | zero =>
      have := encode_length_pos (.obj ((k, v) :: kvs))
      omega
    | succ f =>
      have hshape : encode (.obj ((k, v) :: kvs)) ++ rest =
          lbrace :: (encodeMember (k, v) ++ (encodeMembers kvs ++ rbrace :: rest)) := by
        show (lbrace :: (encodeMember (k, v) ++ encodeMembers kvs) ++ [rbrace]) ++ rest = _
        simp
      have hlf : (encodeMember (k, v)).length + (encodeMembers kvs).length + 1 ≤ f := by
        have hlen0 : (encode (JValue.obj ((k, v) :: kvs))).length =
            (encodeMember (k, v)).length + (encodeMembers kvs).length + 2 := by
          show (lbrace :: (encodeMember (k, v) ++ encodeMembers kvs) ++ [rbrace]).length = _
          simp only [List.length_append, List.length_cons, List.length_nil]
        omega
      rw [hshape, parseVal_obj_entry]
      rw [show encodeMember (k, v) ++ (encodeMembers kvs ++ rbrace :: rest) =
          '"' :: ((escStr k ++ '"' :: ':' :: ' ' :: encode v) ++
            (encodeMembers kvs ++ rbrace :: rest)) from rfl]
      rw [skipWs_cons_not _ (by decide)]
      show (if ('"' : Char) = rbrace then
              some (.obj [], (escStr k ++ '"' :: ':' :: ' ' :: encode v) ++
                (encodeMembers kvs ++ rbrace :: rest))
            else parseObjItems f ('"' :: ((escStr k ++ '"' :: ':' :: ' ' :: encode v) ++
                (encodeMembers kvs ++ rbrace :: rest))) []) =
        some (jnorm (.obj ((k, v) :: kvs)), rest)
      rw [if_neg (by decide : ¬('"' : Char) = rbrace)]
      exact parseObjItems_enc k v kvs [] f rest hlf hr
termination_by v _ _ _ _ => sizeOf v
decreasing_by all_goals (simp_wf; omega)

theorem parseArrItems_enc : ∀ (x : JValue) (xs : List JValue)
    (acc : List JValue) (fuel : Nat) (rest : List Char),
    (encode x).length + (encodeItems xs).length + 1 ≤ fuel → restOk rest = true →
    parseArrItems fuel (encode x ++ (encodeItems xs ++ ']' :: rest)) acc =
      some (.arr (acc ++ jnorm x :: jnormList xs), rest)
  | x, [], acc, fuel, rest, hf, hr => by
    cases fuel with
    | zero => omega
    | succ g =>
      have hvx : parseVal g (encode x ++ (encodeItems [] ++ ']' :: rest)) =
          some (jnorm x, encodeItems [] ++ ']' :: rest) :=
        parseVal_enc x g _ (by omega) (restOk_items [] rest)
      show (match parseVal g (encode x ++ (encodeItems [] ++ ']' :: rest)) with
            | some (v, r1) =>
              match skipWs r1 with
              | c2 :: r2 =>
                if c2 = ']' then some (.arr (acc ++ [v]), r2)
                else if c2 = ',' then parseArrItems g (skipWs r2) (acc ++ [v])
                else none
              | [] => none
            | none => none) = some (.arr (acc ++ jnorm x :: jnormList []), rest)
      rw [hvx]
      show (match skipWs (']' :: rest) with
            | c2 :: r2 =>
              if c2 = ']' then some (.arr (acc ++ [jnorm x]), r2)
              else if c2 = ',' then parseArrItems g (skipWs r2) (acc ++ [jnorm x])
              else none
            | [] => none) = some (.arr (acc ++ jnorm x :: jnormList []), rest)
      rw [skipWs_cons_not _ (by decide : isJsonWs ']' = false)]
      show (if (']' : Char) = ']' then some (.arr (acc ++ [jnorm x]), rest)
            else if (']' : Char) = ',' then parseArrItems g (skipWs rest) (acc ++ [jnorm x])
            else none) = some (.arr (acc ++ [jnorm x]), rest)
      rw [if_pos rfl]
  | x, y :: ys, acc, fuel, rest, hf, hr => by
    cases fuel with
    | zero => omega
    | succ g =>
      have hvx : parseVal g (encode x ++ (encodeItems (y :: ys) ++ ']' :: rest)) =
          some (jnorm x, encodeItems (y :: ys) ++ ']' :: rest) :=
        parseVal_enc x g _ (by omega) (restOk_items (y :: ys) rest)
      show (match parseVal g (encode x ++ (encodeItems (y :: ys) ++ ']' :: rest)) with
            | some (v, r1) =>
              match skipWs r1 with
              | c2 :: r2 =>
                if c2 = ']' then some (.arr (acc ++ [v]), r2)
                else if c2 = ',' then parseArrItems g (skipWs r2) (acc ++ [v])
                else none
              | [] => none
            | none => none) = some (.arr (acc ++ jnorm x :: jnormList (y :: ys)), rest)
      rw [hvx]
      show (match skipWs (encodeItems (y :: ys) ++ ']' :: rest) with
            | c2 :: r2 =>
              if c2 = ']' then some (.arr (acc ++ [jnorm x]), r2)
              else if c2 = ',' then parseArrItems g (skipWs r2) (acc ++ [jnorm x])
              else none
            | [] => none) = some (.arr (acc ++ jnorm x :: jnormList (y :: ys)), rest)
      rw [skipWs_items (y :: ys) rest]
      show (if (',' : Char) = ']' then
              some (.arr (acc ++ [jnorm x]),
                ' ' :: encode y ++ encodeItems ys ++ ']' :: rest)
            else if (',' : Char) = ',' then
              parseArrItems g
                (skipWs (' ' :: encode y ++ encodeItems ys ++ ']' :: rest))
                (acc ++ [jnorm x])
            else none) =
        some (.arr (acc ++ jnorm x :: jnorm y :: jnormList ys), rest)
      rw [if_neg (by decide : ¬(',' : Char) = ']'), if_pos rfl]
      have hsk : skipWs (' ' :: encode y ++ encodeItems ys ++ ']' :: rest) =
          encode y ++ (encodeItems ys ++ ']' :: rest) := by
        rw [show (' ' :: encode y ++ encodeItems ys ++ ']' :: rest) =
          ' ' :: (encode y ++ (encodeItems ys ++ ']' :: rest)) by simp]
        rw [skipWs_space]
        exact skipWs_encode y _
      rw [hsk]
      have hlen : (encode y).length + (encodeItems ys).length + 1 ≤ g := by
        have h1 : (encodeItems (y :: ys)).length =
            (encode y).length + (encodeItems ys).length + 2 := by
          show (',' :: ' ' :: encode y ++ encodeItems ys).length = _
          simp only [List.length_append, List.length_cons]
          omega
        have h2 := encode_length_pos x
        omega
      rw [parseArrItems_enc y ys (acc ++ [jnorm x]) g rest hlen hr]
      simp
termination_by x xs _ _ _ _ _ => sizeOf x + sizeOf xs + 1
decreasing_by all_goals (simp_wf; omega)

theorem parseObjItems_enc : ∀ (k : List Char) (v : JValue)
    (kvs : List (List Char × JValue)) (acc : List (List Char × JValue))
    (fuel : Nat) (rest : List Char),
    (encodeMember (k, v)).length + (encodeMembers kvs).length + 1 ≤ fuel →
    restOk rest = true →
    parseObjItems fuel
        (encodeMember (k, v) ++ (encodeMembers kvs ++ rbrace :: rest)) acc =
      some (.obj (jnormObj acc ((k, v) :: kvs)), rest)
  | k, v, [], acc, fuel, rest, hf, hr => by
    cases fuel with
    | zero => omega
    | succ g =>
      show parseObjItems (g + 1)
        ('"' :: ((escStr k ++ '"' :: ':' :: ' ' :: encode v) ++
          (encodeMembers [] ++ rbrace :: rest))) acc = _
      rw [parseObjItems_entry]
      have hshape2 : (escStr k ++ '"' :: ':' :: ' ' :: encode v) ++
          (encodeMembers [] ++ rbrace :: rest) =
          escStr k ++ '"' :: (':' :: ' ' :: (encode v ++
            (encodeMembers [] ++ rbrace :: rest))) := by
        simp
      rw [hshape2]
      have hkey : parseStrBody
          ((escStr k ++ '"' :: (':' :: ' ' :: (encode v ++
            (encodeMembers [] ++ rbrace :: rest)))).length + 1)
          (escStr k ++ '"' :: (':' :: ' ' :: (encode v ++
            (encodeMembers [] ++ rbrace :: rest)))) =
          some (k, ':' :: ' ' :: (encode v ++
            (encodeMembers [] ++ rbrace :: rest))) := by
        apply parseStrBody_escStr
        have := escStr_length_ge k
        simp only [List.length_append, List.length_cons]
        omega
      rw [hkey]
      show (match skipWs (':' :: ' ' :: (encode v ++
              (encodeMembers [] ++ rbrace :: rest))) with
            | ':' :: r2 =>
              match parseVal g (skipWs r2) with
              | some (w, r3) =>
                match skipWs r3 with
                | c4 :: r4 =>
                  if c4 = rbrace then some (.obj (insertKV acc k w), r4)
                  else if c4 = ',' then parseObjItems g (skipWs r4) (insertKV acc k w)
                  else none
                | [] => none
              | none => none
            | _ => none) = some (.obj (jnormObj acc [(k, v)]), rest)
      rw [skipWs_cons_not _ (by decide : isJsonWs ':' = false)]
      show (match parseVal g (skipWs (' ' :: (encode v ++
              (encodeMembers [] ++ rbrace :: rest)))) with
            | some (w, r3) =>
              match skipWs r3 with
              | c4 :: r4 =>
                if c4 = rbrace then some (.obj (insertKV acc k w), r4)
                else if c4 = ',' then parseObjItems g (skipWs r4) (insertKV acc k w)
                else none
              | [] => none
            | none => none) = some (.obj (jnormObj acc [(k, v)]), rest)
      rw [skipWs_space, skipWs_encode]
      have hlenv : (encode v).length ≤ g := by
        have h1 : (encodeMember (k, v)).length =
            (escStr k).length + (encode v).length + 4 := by
          show ('"' :: escStr k ++ '"' :: ':' :: ' ' :: encode v).length = _
          simp only [List.length_append, List.length_cons]
          omega
        omega
      rw [parseVal_enc v g _ hlenv (restOk_members [] rest)]
      show (match skipWs (encodeMembers [] ++ rbrace :: rest) with
            | c4 :: r4 =>
              if c4 = rbrace then some (.obj (insertKV acc k (jnorm v)), r4)
              else if c4 = ',' then parseObjItems g (skipWs r4) (insertKV acc k (jnorm v))
              else none
            | [] => none) = some (.obj (jnormObj acc [(k, v)]), rest)
      rw [skipWs_members [] rest]
      show (if rbrace = rbrace then some (.obj (insertKV acc k (jnorm v)), rest)
            else if rbrace = ',' then
              parseObjItems g (skipWs rest) (insertKV acc k (jnorm v))
            else none) = some (.obj (jnormObj acc [(k, v)]), rest)
      rw [if_pos rfl]
      rfl
  | k, v, (k2, v2) :: kvs2, acc, fuel, rest, hf, hr => by
    cases fuel with
    | zero => omega
    | succ g =>
      show parseObjItems (g + 1)
        ('"' :: ((escStr k ++ '"' :: ':' :: ' ' :: encode v) ++
          (encodeMembers ((k2, v2) :: kvs2) ++ rbrace :: rest))) acc = _
      rw [parseObjItems_entry]
      have hshape2 : (escStr k ++ '"' :: ':' :: ' ' :: encode v) ++
          (encodeMembers ((k2, v2) :: kvs2) ++ rbrace :: rest) =
          escStr k ++ '"' :: (':' :: ' ' :: (encode v ++
            (encodeMembers ((k2, v2) :: kvs2) ++ rbrace :: rest))) := by
        simp
      rw [hshape2]
      have hkey : parseStrBody
          ((escStr k ++ '"' :: (':' :: ' ' :: (encode v ++
            (encodeMembers ((k2, v2) :: kvs2) ++ rbrace :: rest)))).length + 1)
          (escStr k ++ '"' :: (':' :: ' ' :: (encode v ++
            (encodeMembers ((k2, v2) :: kvs2) ++ rbrace :: rest)))) =
          some (k, ':' :: ' ' :: (encode v ++
            (encodeMembers ((k2, v2) :: kvs2) ++ rbrace :: rest))) := by
        apply parseStrBody_escStr
        have := escStr_length_ge k
        simp only [List.length_append, List.length_cons]
        omega
      rw [hkey]
      show (match skipWs (':' :: ' ' :: (encode v ++
              (encodeMembers ((k2, v2) :: kvs2) ++ rbrace :: rest))) with
            | ':' :: r2 =>
              match parseVal g (skipWs r2) with
              | some (w, r3) =>
                match skipWs r3 with
                | c4 :: r4 =>
                  if c4 = rbrace then some (.obj (insertKV acc k w), r4)
                  else if c4 = ',' then parseObjItems g (skipWs r4) (insertKV acc k w)
                  else none
                | [] => none
              | none => none
            | _ => none) = some (.obj (jnormObj acc ((k, v) :: (k2, v2) :: kvs2)), rest)
      rw [skipWs_cons_not _ (by decide : isJsonWs ':' = false)]
      show (match parseVal g (skipWs (' ' :: (encode v ++
              (encodeMembers ((k2, v2) :: kvs2) ++ rbrace :: rest)))) with
            | some (w, r3) =>
              match skipWs r3 with
              | c4 :: r4 =>
                if c4 = rbrace then some (.obj (insertKV acc k w), r4)
                else if c4 = ',' then parseObjItems g (skipWs r4) (insertKV acc k w)
                else none
              | [] => none
            | none => none) = some (.obj (jnormObj acc ((k, v) :: (k2, v2) :: kvs2)), rest)
      rw [skipWs_space, skipWs_encode]
      have hlenv : (encode v).length ≤ g := by
        have h1 : (encodeMember (k, v)).length =
            (escStr k).length + (encode v).length + 4 := by
          show ('"' :: escStr k ++ '"' :: ':' :: ' ' :: encode v).length = _
          simp only [List.length_append, List.length_cons]
          omega
        omega
      rw [parseVal_enc v g _ hlenv (restOk_members ((k2, v2) :: kvs2) rest)]
      show (match skipWs (encodeMembers ((k2, v2) :: kvs2) ++ rbrace :: rest) with
            | c4 :: r4 =>
              if c4 = rbrace then some (.obj (insertKV acc k (jnorm v)), r4)
              else if c4 = ',' then parseObjItems g (skipWs r4) (insertKV acc k (jnorm v))
              else none
            | [] => none) = some (.obj (jnormObj acc ((k, v) :: (k2, v2) :: kvs2)), rest)
      rw [skipWs_members ((k2, v2) :: kvs2) rest]
      show (if (',' : Char) = rbrace then
              some (.obj (insertKV acc k (jnorm v)),
                ' ' :: encodeMember (k2, v2) ++ encodeMembers kvs2 ++ rbrace :: rest)
            else if (',' : Char) = ',' then
              parseObjItems g
                (skipWs (' ' :: encodeMember (k2, v2) ++ encodeMembers kvs2 ++
                  rbrace :: rest))
                (insertKV acc k (jnorm v))
            else none) =
        some (.obj (jnormObj acc ((k, v) :: (k2, v2) :: kvs2)), rest)
      rw [if_neg (by decide : ¬(',' : Char) = rbrace), if_pos rfl]
      have hsk : skipWs (' ' :: encodeMember (k2, v2) ++ encodeMembers kvs2 ++
          rbrace :: rest) =
          encodeMember (k2, v2) ++ (encodeMembers kvs2 ++ rbrace :: rest) := by
        rw [show (' ' :: encodeMember (k2, v2) ++ encodeMembers kvs2 ++ rbrace :: rest) =
          ' ' :: (encodeMember (k2, v2) ++ (encodeMembers kvs2 ++ rbrace :: rest)) by simp]
        rw [skipWs_space]
        rw [show encodeMember (k2, v2) ++ (encodeMembers kvs2 ++ rbrace :: rest) =
          '"' :: ((escStr k2 ++ '"' :: ':' :: ' ' :: encode v2) ++
            (encodeMembers kvs2 ++ rbrace :: rest)) from rfl]
        exact skipWs_cons_not _ (by decide)
      rw [hsk]
      have hlen2 : (encodeMember (k2, v2)).length + (encodeMembers kvs2).length + 1 ≤ g := by
        have h1 : (encodeMembers ((k2, v2) :: kvs2)).length =
            (encodeMember (k2, v2)).length + (encodeMembers kvs2).length + 2 := by
          show (',' :: ' ' :: encodeMember (k2, v2) ++ encodeMembers kvs2).length = _
          simp only [List.length_append, List.length_cons]
          omega
        have h2 : 0 < (encodeMember (k, v)).length := by
          show 0 < ('"' :: escStr k ++ '"' :: ':' :: ' ' :: encode v).length
          simp
        omega
      rw [parseObjItems_enc k2 v2 kvs2 (insertKV acc k (jnorm v)) g rest hlen2 hr]
      rfl
termination_by k v kvs _ _ _ _ _ => sizeOf v + sizeOf kvs + 1
decreasing_by all_goals (simp_wf; omega)

end

theorem json_loads_encode (v : JValue) : json_loads (encode v) = some (jnorm v) := by
  unfold json_loads
  have h1 : skipWs (encode v) = encode v := by
    have := skipWs_encode v []
    simpa using this
  rw [h1]
  have h2 : encode v ++ ([] : List Char) = encode v := by simp
  have := parseVal_enc v (2 * (encode v).length + 2) [] (by omega) rfl
  rw [h2] at this
  rw [this]
  rfl

theorem json_loads_encode_padded (v : JValue) :
    json_loads ('\n' :: encode v ++ ['\n']) = some (jnorm v) := by
  unfold json_loads
  have h1 : skipWs ('\n' :: encode v ++ ['\n']) = encode v ++ ['\n'] := by
    rw [show ('\n' :: encode v ++ ['\n']) = '\n' :: (encode v ++ ['\n']) by simp,
      skipWs_newline]
    exact skipWs_encode v ['\n']
  rw [h1]
  have := parseVal_enc v (2 * ('\n' :: encode v ++ ['\n']).length + 2) ['\n']
    (by simp only [List.length_append, List.length_cons]; omega) (by decide)
  rw [this]
  rfl

/-!  ## `jnorm` is the identity on well-formed values -/

theorem hasKeyB_append (t1 t2 : List (List Char × JValue)) (key : List Char) :
    hasKeyB (t1 ++ t2) key = (hasKeyB t1 key || hasKeyB t2 key) := by
  induction t1 with
  | nil => simp [hasKeyB]
  | cons kv t ih =>
    obtain ⟨k, v⟩ := kv
    simp [hasKeyB, ih, Bool.or_assoc]

theorem insertKV_append {acc : List (List Char × JValue)} {k : List Char}
    (v : JValue) (h : hasKeyB acc k = false) :
    insertKV acc k v = acc ++ [(k, v)] := by
  induction acc with
  | nil => rfl
  | cons kv t ih =>
    obtain ⟨k0, v0⟩ := kv
    simp only [hasKeyB, Bool.or_eq_false_iff] at h
    rw [insertKV, if_neg ?hne, ih h.2]
    · rfl
    case hne =>
      intro he
      rw [he] at h
      simp at h

mutual

theorem jnorm_eq : ∀ (v : JValue), jwf v = true → jnorm v = v
  | .null, _ => rfl
  | .bool _, _ => rfl
  | .num _, _ => rfl
  | .str _, _ => rfl
  | .arr xs, h => by
    rw [jnorm, jnormList_eq xs (by simpa [jwf] using h)]
  | .obj kvs, h => by
    rw [jnorm]
    have h1 : keysDistinct kvs = true ∧ jwfKVs kvs = true := by
      simpa [jwf, Bool.and_eq_true] using h
    rw [jnormObj_eq kvs [] h1.2 h1.1 (fun k v _ => rfl)]
    rfl

theorem jnormList_eq : ∀ (xs : List JValue), jwfList xs = true → jnormList xs = xs
  | [], _ => rfl
  | x :: t, h => by
    have h1 : jwf x = true ∧ jwfList t = true := by
      simpa [jwfList, Bool.and_eq_true] using h
    rw [jnormList, jnorm_eq x h1.1, jnormList_eq t h1.2]

theorem jnormObj_eq : ∀ (kvs : List (List Char × JValue))
    (acc : List (List Char × JValue)),
    jwfKVs kvs = true → keysDistinct kvs = true →
    (∀ k v, (k, v) ∈ kvs → hasKeyB acc k = false) →
    jnormObj acc kvs = acc ++ kvs
  | [], acc, _, _, _ => by simp [jnormObj]
  | (k, v) :: t, acc, hwf, hdist, hfresh => by
    have h1 : jwf v = true ∧ jwfKVs t = true := by
      simpa [jwfKVs, Bool.and_eq_true] using hwf
    have h2 : hasKeyB t k = false ∧ keysDistinct t = true := by
      simpa [keysDistinct, Bool.and_eq_true] using hdist
    rw [jnormObj, jnorm_eq v h1.1,
      insertKV_append v (hfresh k v (by simp)),
      jnormObj_eq t (acc ++ [(k, v)]) h1.2 h2.2 ?fresh]
    · simp
    case fresh =>
      intro k2 v2 hmem
      rw [hasKeyB_append]
      have hk2 : hasKeyB t k2 = true := by
        clear hfresh hdist hwf h1 h2
        induction t with
        | nil => simp at hmem
        | cons kv3 t3 ih =>
          obtain ⟨k3, v3⟩ := kv3
          rcases List.mem_cons.mp hmem with he | hm
          · rw [hasKeyB]
            have h3 : k3 = k2 := (Prod.ext_iff.mp he.symm).1
            simp [h3]
          · rw [hasKeyB, ih hm]
            simp
      have hne : k2 ≠ k := by
        intro he
        rw [he] at hk2
        rw [hk2] at h2
        simp at h2
      rw [hfresh k2 v2 (List.mem_cons_of_mem _ hmem)]
      simp [hasKeyB, Ne.symm hne]

end

/-!  ## Round-trip claims -/

theorem isPrefixOf_trans :
    ∀ {a b s : List Char}, a.isPrefixOf b = true → b.isPrefixOf s = true →
      a.isPrefixOf s = true := by
  intro a
  induction a with
  | nil => intro b s _ _; cases s <;> rfl
  | cons x xs ih =>
    intro b s h1 h2
    cases b with
    | nil => simp [List.isPrefixOf] at h1
    | cons c cs =>
      cases s with
      | nil => simp [List.isPrefixOf] at h2
      | cons d ds =>
        simp only [List.isPrefixOf, Bool.and_eq_true, beq_iff_eq] at h1 h2 ⊢
        exact ⟨h1.1.trans h2.1, ih h1.2 h2.2⟩

theorem hasOcc_mono {p q : List Char} (hpq : p.isPrefixOf q = true) :
    ∀ {s : List Char}, hasOcc q s = true → hasOcc p s = true := by
  intro s
  induction s with
  | nil => intro h; simp [hasOcc] at h
  | cons c cs ih =>
    intro h
    simp only [hasOcc, Bool.or_eq_true] at h ⊢
    rcases h with h | h
    · exact Or.inl (isPrefixOf_trans hpq h)
    · exact Or.inr (ih h)

theorem stripFences_id {s : List Char} (h : hasOcc fence s = false) :
    stripFences s = s := by
  have h7 : hasOcc fenceJson s = false := by
    rcases Bool.eq_false_or_eq_true (hasOcc fenceJson s) with ht | hf
    · exact absurd (hasOcc_mono (p := fence) (by decide) ht) (by simp [h])
    · exact hf
  unfold stripFences
  rw [pyReplace_id _ h7, pyReplace_id _ h]

/-- C6 counterexample: `fencedStrObj` is a well-formed mapping, but its
encoding contains the fence marker, which `parse_llm_json` strips before
parsing — the round trip returns a different mapping (the backticks inside
the string value are lost). -/
theorem roundtrip_fence_cex :
    jwf fencedStrObj = true ∧
    parse_llm_json (encode fencedStrObj) = JValue.obj [(pyStr "a", .str [])] ∧
    JValue.obj [(pyStr "a", .str [])] ≠ fencedStrObj := by
  refine ⟨rfl, rfl, ?_⟩
  simp [fencedStrObj, fence, backtick]

/-- C6 (amended): for every JSON mapping whose encoding contains no
occurrence of the fence marker (three backticks), normalizing the encoding
returns the mapping itself; when the encoding does contain the marker, the
replacement passes corrupt it before parsing. -/
theorem roundtrip_of_no_fence (kvs : List (List Char × JValue))
    (hwf : jwf (.obj kvs) = true)
    (hnf : hasOcc fence (encode (.obj kvs)) = false) :
    parse_llm_json (encode (.obj kvs)) = .obj kvs := by
  have hid : stripFences (encode (.obj kvs)) = encode (.obj kvs) := stripFences_id hnf
  have hl : json_loads (stripFences (encode (.obj kvs))) = some (jnorm (.obj kvs)) := by
    rw [hid]
    exact json_loads_encode _
  rw [parse_llm_json_of_loads hl, jnorm_eq _ hwf]

theorem roundtrip_of_no_fence_witness :
    jwf (JValue.obj [(pyStr "answer", .str (pyStr "42"))]) = true ∧
    hasOcc fence (encode (JValue.obj [(pyStr "answer", .str (pyStr "42"))])) = false ∧
    parse_llm_json (encode (JValue.obj [(pyStr "answer", .str (pyStr "42"))])) =
      JValue.obj [(pyStr "answer", .str (pyStr "42"))] :=
  ⟨rfl, rfl, roundtrip_of_no_fence [(pyStr "answer", .str (pyStr "42"))] rfl rfl⟩

/-!  ## Fence stripping commutes with encoding

Every occurrence of a fence pattern inside an encoded value lies within the
raw-emitted characters of an encoded string literal, so the two `replace`
passes of `parse_llm_json` act on an encoded value exactly as `replaceJ`
acts on its string contents and keys.  The pattern hypotheses (head is a
backtick, all characters self-escape, no structural character belongs to
the pattern) hold for both fence markers. -/

theorem pyReplace_seg {ph : Char} {pt : List Char} :
    ∀ (seg z rep : List Char), (∀ x ∈ seg, x ≠ ph) →
      pyReplace (seg ++ z) (ph :: pt) rep = seg ++ pyReplace z (ph :: pt) rep := by
  intro seg
  induction seg with
  | nil => intro z rep _; rfl
  | cons c t ih =>
    intro z rep h
    rw [List.cons_append, pyReplace_cons_ne_head _ rep (h c (by simp)),
      ih z rep fun x hx => h x (List.mem_cons_of_mem _ hx)]
    rfl

theorem hexDigitChar_mod_ne_backtick (m : Nat) : hexDigitChar (m % 16) ≠ backtick := by
  have hlt : m % 16 < 16 := Nat.mod_lt _ (by omega)
  unfold hexDigitChar
  by_cases h : m % 16 < 10
  · rw [if_pos h]
    apply char_ne_of_toNat_ne
    rw [char_toNat_ofNat_lt (by omega)]
    show 48 + m % 16 ≠ (backtick : Char).toNat
    have : (backtick : Char).toNat = 96 := rfl
    omega
  · rw [if_neg h]
    apply char_ne_of_toNat_ne
    rw [char_toNat_ofNat_lt (by omega)]
    show 87 + m % 16 ≠ (backtick : Char).toNat
    have : (backtick : Char).toNat = 96 := rfl
    omega

theorem hex4_ne_backtick (n : Nat) : ∀ x ∈ hex4 n, x ≠ backtick := by
  intro x hx
  simp only [hex4, List.mem_cons, List.not_mem_nil, or_false] at hx
  rcases hx with h | h | h | h <;> subst h <;> exact hexDigitChar_mod_ne_backtick _

theorem escChar_cases (c : Char) :
    escChar c = [c] ∨ ∃ e, escChar c = '\\' :: e ∧ ∀ x ∈ e, x ≠ backtick := by
  unfold escChar
  by_cases h1 : c = '"'
  · rw [if_pos h1]; exact Or.inr ⟨['"'], rfl, by decide⟩
  rw [if_neg h1]
  by_cases h2 : c = '\\'
  · rw [if_pos h2]; exact Or.inr ⟨['\\'], rfl, by decide⟩
  rw [if_neg h2]
  by_cases h3 : c.toNat = 8
  · rw [if_pos h3]; exact Or.inr ⟨['b'], rfl, by decide⟩
  rw [if_neg h3]
  by_cases h4 : c.toNat = 9
  · rw [if_pos h4]; exact Or.inr ⟨['t'], rfl, by decide⟩
  rw [if_neg h4]
  by_cases h5 : c.toNat = 10
  · rw [if_pos h5]; exact Or.inr ⟨['n'], rfl, by decide⟩
  rw [if_neg h5]
  by_cases h6 : c.toNat = 12
  · rw [if_pos h6]; exact Or.inr ⟨['f'], rfl, by decide⟩
  rw [if_neg h6]
  by_cases h7 : c.toNat = 13
  · rw [if_pos h7]; exact Or.inr ⟨['r'], rfl, by decide⟩
  rw [if_neg h7]
  by_cases h8 : 32 ≤ c.toNat ∧ c.toNat ≤ 126
  · rw [if_pos h8]; exact Or.inl rfl
  rw [if_neg h8]
  by_cases h9 : c.toNat < 65536
  · rw [if_pos h9]
    refine Or.inr ⟨'u' :: hex4 c.toNat, rfl, ?_⟩
    intro x hx
    rcases List.mem_cons.mp hx with he | hm
    · subst he; decide
    · exact hex4_ne_backtick _ x hm
  · rw [if_neg h9]
    refine Or.inr ⟨'u' :: (hex4 (55296 + (c.toNat - 65536) / 1024) ++
      '\\' :: 'u' :: hex4 (56320 + (c.toNat - 65536) % 1024)), rfl, ?_⟩
    intro x hx
    rcases List.mem_cons.mp hx with he | hm
    · subst he; decide
    · rw [List.mem_append] at hm
      rcases hm with h | h
      · exact hex4_ne_backtick _ x h
      · rcases List.mem_cons.mp h with he | h
        · subst he; decide
        · rcases List.mem_cons.mp h with he | h
          · subst he; decide
          · exact hex4_ne_backtick _ x h

theorem escStr_prefix_decomp :
    ∀ (pat s : List Char), (∀ p ∈ pat, escChar p = [p]) → pat.isPrefixOf s = true →
      escStr s = pat ++ escStr (s.drop pat.length) := by
  intro pat
  induction pat with
  | nil => intro s _ _; rfl
  | cons p pt ih =>
    intro s hplain hpre
    cases s with
    | nil => simp [List.isPrefixOf] at hpre
    | cons c t =>
      simp only [List.isPrefixOf, Bool.and_eq_true, beq_iff_eq] at hpre
      obtain ⟨rfl, h2⟩ := hpre
      rw [escStr, hplain p (by simp),
        ih t (fun q hq => hplain q (List.mem_cons_of_mem _ hq)) h2]
      rfl

theorem isPrefixOf_escStr :
    ∀ (pat s : List Char), (∀ p ∈ pat, escChar p = [p]) →
      pat.isPrefixOf (escStr s) = true → pat.isPrefixOf s = true := by
  intro pat
  induction pat with
  | nil => intro s _ _; cases s <;> rfl
  | cons p pt ih =>
    intro s hplain hpre
    cases s with
    | nil => simp [escStr, List.isPrefixOf] at hpre
    | cons c t =>
      rcases escChar_cases c with hc | ⟨e, hc, _⟩
      · rw [escStr, hc, List.cons_append, List.nil_append] at hpre
        simp only [List.isPrefixOf, Bool.and_eq_true, beq_iff_eq] at hpre ⊢
        exact ⟨hpre.1, ih t (fun q hq => hplain q (List.mem_cons_of_mem _ hq)) hpre.2⟩
      · exfalso
        rw [escStr, hc, List.cons_append] at hpre
        simp only [List.isPrefixOf, Bool.and_eq_true, beq_iff_eq] at hpre
        have hp : p = '\\' := hpre.1
        have := hplain p (by simp)
        rw [hp] at this
        exact absurd this (by decide)

theorem escStr_cons (c : Char) (t : List Char) :
    escStr (c :: t) = escChar c ++ escStr t := rfl

theorem escStr_replace_comm (pt : List Char)
    (hplain : ∀ p ∈ backtick :: pt, escChar p = [p]) :
    ∀ (n : Nat) (s : List Char), s.length ≤ n →
      pyReplace (escStr s) (backtick :: pt) [] =
        escStr (pyReplace s (backtick :: pt) []) := by
  intro n
  induction n with
  | zero =>
    intro s h
    have hs : s = [] := List.length_eq_zero.mp (Nat.le_zero.mp h)
    subst hs
    rfl
  | succ m ih =>
    intro s h
    cases s with
    | nil => rfl
    | cons c t =>
      rcases escChar_cases c with hc | ⟨e, hc, he⟩
      · by_cases hp : (backtick :: pt).isPrefixOf (c :: t) = true
        · have hdecomp := escStr_prefix_decomp (backtick :: pt) (c :: t) hplain hp
          rw [hdecomp, pyReplace_append_self _ _ (by simp), List.nil_append,
            pyReplace_cons_pos _ hp, List.nil_append]
          have hdrop : (c :: t).drop (backtick :: pt).length = t.drop pt.length := rfl
          have hdrop2 : (backtick :: pt).length - 1 = pt.length := by simp
          rw [hdrop, hdrop2]
          exact ih (t.drop pt.length)
            (by simp only [List.length_drop]; simp at h; omega)
        · have hp0 : (backtick :: pt).isPrefixOf (c :: t) = false :=
            Bool.eq_false_iff.mpr hp
          have hp2 : (backtick :: pt).isPrefixOf (c :: escStr t) = false := by
            rcases Bool.eq_false_or_eq_true
                ((backtick :: pt).isPrefixOf (c :: escStr t)) with ht | hf
            · exfalso
              have : (backtick :: pt).isPrefixOf (escStr (c :: t)) = true := by
                rw [escStr_cons, hc]
                exact ht
              exact hp (isPrefixOf_escStr _ _ hplain this)
            · exact hf
          rw [escStr_cons, hc, List.cons_append, List.nil_append,
            pyReplace_cons_neg _ hp2, pyReplace_cons_neg _ hp0,
            ih t (by simpa using h), escStr_cons, hc]
          rfl
      · have hcb : c ≠ backtick := by
          intro hceq
          rw [hceq] at hc
          have hbt : escChar backtick = [backtick] := by decide
          rw [hbt] at hc
          have := (List.cons.injEq backtick [] '\\' e).mp hc
          exact absurd this.1 (by decide)
        rw [escStr_cons, hc, List.cons_append,
          pyReplace_cons_ne_head _ _ (by decide : ('\\' : Char) ≠ backtick),
          pyReplace_seg e (escStr t) [] he, ih t (by simpa using h),
          pyReplace_cons_ne_head _ _ hcb, escStr_cons, hc]
        rfl

theorem pyReplace_nb {pt : List Char} (rep : List Char) {s : List Char}
    (h : ∀ c ∈ s, c ≠ backtick) : pyReplace s (backtick :: pt) rep = s :=
  pyReplace_id rep (hasOcc_eq_false_of_head_notin h)

theorem natRepr_ne_backtick (m : Nat) : ∀ c ∈ natRepr m, c ≠ backtick := by
  by_cases hm : m = 0
  · subst hm
    decide
  · intro c hc
    rw [natRepr, if_neg hm] at hc
    have hd : isDigit c = true :=
      natRevDigits_all_digits m m c (List.mem_reverse.mp hc)
    have hb : 48 ≤ c.toNat ∧ c.toNat ≤ 57 := by
      simpa [isDigit, Bool.and_eq_true, decide_eq_true_eq] using hd
    exact char_ne_of_toNat_ne (by intro he; rw [he] at hb; exact absurd hb (by decide))

theorem intRepr_ne_backtick (n : Int) : ∀ c ∈ intRepr n, c ≠ backtick := by
  cases n with
  | ofNat m => exact natRepr_ne_backtick m
  | negSucc m =>
    intro c hc
    rcases List.mem_cons.mp hc with he | hm
    · subst he; decide
    · exact natRepr_ne_backtick (m + 1) c hm

theorem items_head_cond {pt : List Char} (hcm : (',' : Char) ∉ backtick :: pt)
    (xs : List JValue) :
    ∀ (c : Char) (cs : List Char), encodeItems xs = c :: cs →
      c ∉ backtick :: pt := by
  intro c cs hcc
  cases xs with
  | nil => simp [encodeItems] at hcc
  | cons y ys =>
    have h0 : encodeItems (y :: ys) =
        ',' :: ((' ' :: encode y) ++ encodeItems ys) := rfl
    rw [h0] at hcc
    injection hcc with h1 _
    subst h1
    exact hcm

theorem members_head_cond {pt : List Char} (hcm : (',' : Char) ∉ backtick :: pt)
    (kvs : List (List Char × JValue)) :
    ∀ (c : Char) (cs : List Char), encodeMembers kvs = c :: cs →
      c ∉ backtick :: pt := by
  intro c cs hcc
  cases kvs with
  | nil => simp [encodeMembers] at hcc
  | cons kv t =>
    have h0 : encodeMembers (kv :: t) =
        ',' :: ((' ' :: encodeMember kv) ++ encodeMembers t) := rfl
    rw [h0] at hcc
    injection hcc with h1 _
    subst h1
    exact hcm

mutual

theorem encode_replace (pt : List Char)
    (hplain : ∀ p ∈ backtick :: pt, escChar p = [p])
    (hq : ('"' : Char) ∉ backtick :: pt) (hcm : (',' : Char) ∉ backtick :: pt)
    (hrb : (']' : Char) ∉ backtick :: pt) (hbr : rbrace ∉ backtick :: pt) :
    ∀ (v : JValue),
      pyReplace (encode v) (backtick :: pt) [] = encode (replaceJ (backtick :: pt) v)
  | .null => pyReplace_nb [] (by decide)
  | .bool true => pyReplace_nb [] (by decide)
  | .bool false => pyReplace_nb [] (by decide)
  | .num n => pyReplace_nb [] (intRepr_ne_backtick n)
  | .str s => by
    show pyReplace (('"' :: escStr s) ++ ['"']) (backtick :: pt) [] = _
    rw [List.cons_append,
      pyReplace_cons_ne_head _ _ (by decide : ('"' : Char) ≠ backtick),
      pyReplace_append_split (escStr s).length (escStr s) ['"'] [] (le_refl _)
        (fun c cs hcc => by injection hcc with h1 _; subst h1; exact hq),
      escStr_replace_comm pt hplain s.length s (le_refl _),
      pyReplace_nb [] (by decide : ∀ c ∈ ['"'], c ≠ backtick)]
    rfl
  | .arr [] => pyReplace_nb [] (by decide)
  | .arr (x :: xs) => by
    show pyReplace (('[' :: (encode x ++ encodeItems xs)) ++ [']'])
      (backtick :: pt) [] = _
    rw [pyReplace_append_split ('[' :: (encode x ++ encodeItems xs)).length
        ('[' :: (encode x ++ encodeItems xs)) [']'] [] (le_refl _)
        (fun c cs hcc => by injection hcc with h1 _; subst h1; exact hrb),
      pyReplace_cons_ne_head _ _ (by decide : ('[' : Char) ≠ backtick),
      pyReplace_append_split (encode x).length (encode x) (encodeItems xs) []
        (le_refl _) (items_head_cond hcm xs),
      encode_replace pt hplain hq hcm hrb hbr x,
      encodeItems_replace pt hplain hq hcm hrb hbr xs,
      pyReplace_nb [] (by decide : ∀ c ∈ [']'], c ≠ backtick)]
    rfl
  | .obj [] => pyReplace_nb [] (by decide)
  | .obj (kv :: kvs) => by
    show pyReplace ((lbrace :: (encodeMember kv ++ encodeMembers kvs)) ++ [rbrace])
      (backtick :: pt) [] = _
    rw [pyReplace_append_split (lbrace :: (encodeMember kv ++ encodeMembers kvs)).length
        (lbrace :: (encodeMember kv ++ encodeMembers kvs)) [rbrace] [] (le_refl _)
        (fun c cs hcc => by injection hcc with h1 _; subst h1; exact hbr),
      pyReplace_cons_ne_head _ _ (by decide : lbrace ≠ backtick),
      pyReplace_append_split (encodeMember kv).length (encodeMember kv)
        (encodeMembers kvs) [] (le_refl _) (members_head_cond hcm kvs),
      encodeMember_replace pt hplain hq hcm hrb hbr kv,
      encodeMembers_replace pt hplain hq hcm hrb hbr kvs,
      pyReplace_nb [] (by decide : ∀ c ∈ [rbrace], c ≠ backtick)]
    rfl

theorem encodeItems_replace (pt : List Char)
    (hplain : ∀ p ∈ backtick :: pt, escChar p = [p])
    (hq : ('"' : Char) ∉ backtick :: pt) (hcm : (',' : Char) ∉ backtick :: pt)
    (hrb : (']' : Char) ∉ backtick :: pt) (hbr : rbrace ∉ backtick :: pt) :
    ∀ (xs : List JValue),
      pyReplace (encodeItems xs) (backtick :: pt) [] =
        encodeItems (replaceJList (backtick :: pt) xs)
  | [] => rfl
  | y :: ys => by
    show pyReplace (',' :: (' ' :: (encode y ++ encodeItems ys)))
      (backtick :: pt) [] = _
    rw [pyReplace_cons_ne_head _ _ (by decide : (',' : Char) ≠ backtick),
      pyReplace_cons_ne_head _ _ (by decide : (' ' : Char) ≠ backtick),
      pyReplace_append_split (encode y).length (encode y) (encodeItems ys) []
        (le_refl _) (items_head_cond hcm ys),
      encode_replace pt hplain hq hcm hrb hbr y,
      encodeItems_replace pt hplain hq hcm hrb hbr ys]
    rfl

theorem encodeMember_replace (pt : List Char)
    (hplain : ∀ p ∈ backtick :: pt, escChar p = [p])
    (hq : ('"' : Char) ∉ backtick :: pt) (hcm : (',' : Char) ∉ backtick :: pt)
    (hrb : (']' : Char) ∉ backtick :: pt) (hbr : rbrace ∉ backtick :: pt) :
    ∀ (kv : List Char × JValue),
      pyReplace (encodeMember kv) (backtick :: pt) [] =
        encodeMember (pyReplace kv.1 (backtick :: pt) [],
          replaceJ (backtick :: pt) kv.2)
  | (k, v) => by
    show pyReplace (('"' :: escStr k) ++ ('"' :: ':' :: ' ' :: encode v))
      (backtick :: pt) [] = _
    rw [List.cons_append,
      pyReplace_cons_ne_head _ _ (by decide : ('"' : Char) ≠ backtick),
      pyReplace_append_split (escStr k).length (escStr k)
        ('"' :: ':' :: ' ' :: encode v) [] (le_refl _)
        (fun c cs hcc => by injection hcc with h1 _; subst h1; exact hq),
      escStr_replace_comm pt hplain k.length k (le_refl _),
      pyReplace_cons_ne_head _ _ (by decide : ('"' : Char) ≠ backtick),
      pyReplace_cons_ne_head _ _ (by decide : (':' : Char) ≠ backtick),
      pyReplace_cons_ne_head _ _ (by decide : (' ' : Char) ≠ backtick),
      encode_replace pt hplain hq hcm hrb hbr v]
    rfl

theorem encodeMembers_replace (pt : List Char)
    (hplain : ∀ p ∈ backtick :: pt, escChar p = [p])
    (hq : ('"' : Char) ∉ backtick :: pt) (hcm : (',' : Char) ∉ backtick :: pt)
    (hrb : (']' : Char) ∉ backtick :: pt) (hbr : rbrace ∉ backtick :: pt) :
    ∀ (kvs : List (List Char × JValue)),
      pyReplace (encodeMembers kvs) (backtick :: pt) [] =
        encodeMembers (replaceJKVs (backtick :: pt) kvs)
  | [] => rfl
  | (k, v) :: t => by
    show pyReplace (',' :: (' ' :: (encodeMember (k, v) ++ encodeMembers t)))
      (backtick :: pt) [] = _
    rw [pyReplace_cons_ne_head _ _ (by decide : (',' : Char) ≠ backtick),
      pyReplace_cons_ne_head _ _ (by decide : (' ' : Char) ≠ backtick),
      pyReplace_append_split (encodeMember (k, v)).length (encodeMember (k, v))
        (encodeMembers t) [] (le_refl _) (members_head_cond hcm t),
      encodeMember_replace pt hplain hq hcm hrb hbr (k, v),
      encodeMembers_replace pt hplain hq hcm hrb hbr t]
    rfl

end

/-!  ## Fence-wrapping idempotence -/

theorem stripFences_encode (x : JValue) :
    stripFences (encode x) = encode (replaceJ fence (replaceJ fenceJson x)) := by
  unfold stripFences
  rw [show fenceJson = backtick :: [backtick, backtick, 'j', 's', 'o', 'n'] from rfl,
    show fence = backtick :: [backtick, backtick] from rfl,
    encode_replace [backtick, backtick, 'j', 's', 'o', 'n'] (by decide) (by decide)
      (by decide) (by decide) (by decide) x,
    encode_replace [backtick, backtick] (by decide) (by decide)
      (by decide) (by decide) (by decide) (replaceJ (backtick :: [backtick, backtick, 'j', 's', 'o', 'n']) x)]

theorem pyReplace_fenceJson_pad (x : JValue) :
    pyReplace (wrapFence (encode x)) fenceJson [] =
      '\n' :: (encode (replaceJ fenceJson x) ++ ('\n' :: fence)) := by
  unfold wrapFence
  rw [List.append_assoc,
    pyReplace_append_self _ _ (by decide : fenceJson ≠ []), List.nil_append,
    List.cons_append,
    show fenceJson = backtick :: [backtick, backtick, 'j', 's', 'o', 'n'] from rfl,
    pyReplace_cons_ne_head _ _ (by decide : ('\n' : Char) ≠ backtick),
    pyReplace_append_split (encode x).length (encode x) ('\n' :: fence) []
      (le_refl _)
      (fun c cs hcc => by injection hcc with h1 _; subst h1; decide),
    encode_replace [backtick, backtick, 'j', 's', 'o', 'n'] (by decide) (by decide)
      (by decide) (by decide) (by decide) x,
    show pyReplace ('\n' :: fence)
      (backtick :: [backtick, backtick, 'j', 's', 'o', 'n']) [] = '\n' :: fence from rfl]

theorem pyReplace_fence_pad (y : JValue) :
    pyReplace ('\n' :: (encode y ++ ('\n' :: fence))) fence [] =
      '\n' :: (encode (replaceJ fence y) ++ ['\n']) := by
  rw [show fence = backtick :: [backtick, backtick] from rfl,
    pyReplace_cons_ne_head _ _ (by decide : ('\n' : Char) ≠ backtick),
    pyReplace_append_split (encode y).length (encode y)
      ('\n' :: (backtick :: [backtick, backtick])) [] (le_refl _)
      (fun c cs hcc => by injection hcc with h1 _; subst h1; decide),
    encode_replace [backtick, backtick] (by decide) (by decide)
      (by decide) (by decide) (by decide) y,
    show pyReplace ('\n' :: (backtick :: [backtick, backtick]))
      (backtick :: [backtick, backtick]) [] = ['\n'] from rfl]

theorem stripFences_wrap (x : JValue) :
    stripFences (wrapFence (encode x)) =
      '\n' :: (encode (replaceJ fence (replaceJ fenceJson x)) ++ ['\n']) := by
  unfold stripFences
  rw [pyReplace_fenceJson_pad, pyReplace_fence_pad]

/-- C9: wrapping an encoded JSON mapping in the recognized fence markers
(`` ```json `` before, `` ``` `` after, on their own lines) and normalizing
yields the same result as normalizing the unwrapped encoding: both sides
strip to the same cleaned text (up to surrounding newlines, which the JSON
scanner skips) and parse identically. -/
theorem fence_wrap_equiv (kvs : List (List Char × JValue)) :
    parse_llm_json (wrapFence (encode (.obj kvs))) =
      parse_llm_json (encode (.obj kvs)) := by
  have hL : json_loads (stripFences (wrapFence (encode (.obj kvs)))) =
      some (jnorm (replaceJ fence (replaceJ fenceJson (.obj kvs)))) := by
    rw [stripFences_wrap]
    exact json_loads_encode_padded (replaceJ fence (replaceJ fenceJson (.obj kvs)))
  have hR : json_loads (stripFences (encode (.obj kvs))) =
      some (jnorm (replaceJ fence (replaceJ fenceJson (.obj kvs)))) := by
    rw [stripFences_encode]
    exact json_loads_encode _
  rw [parse_llm_json_of_loads hL, parse_llm_json_of_loads hR]

end RfpApp
